import Mathlib

/-!
Shallow embedding of the VLAN id replacement engine of `src/vlan-replacer.py`
(function `replace_vlan_ids` with its inner callback `replace_vlan`), together
with proofs settling the specification claims about it.

Texts are modelled as `List Char`.  Python integers are modelled as `Int`
(mapping values and range bounds) and `Nat` (ids parsed from digit runs).
-/

/-- Decimal digit value of a character, as Python `int()` sees a digit char. -/
def digitVal (c : Char) : Nat := c.toNat - 48

/-- Character for a decimal digit value. -/
def digitChar (d : Nat) : Char := Char.ofNat (48 + d)

/-- Decimal value of a digit run, as Python `int(match.group(1))` computes it. -/
def digitsVal (cs : List Char) : Nat := cs.foldl (fun a c => 10 * a + digitVal c) 0

/-- Fuel-driven big-endian decimal digit list of a natural number. -/
def natDigsF : Nat → Nat → List Nat
  | 0, n => [n]
  | f + 1, n => if n < 10 then [n] else natDigsF f (n / 10) ++ [n % 10]

/-- Big-endian decimal digits of a natural number. -/
def natDigs (n : Nat) : List Nat := natDigsF n n

/-- Decimal string of a natural number, as Python `str()` prints it. -/
def natStr (n : Nat) : List Char := (natDigs n).map digitChar

/-- Decimal string of an integer, as Python `str()` prints it inside an f-string. -/
def intStr (i : Int) : List Char := if i < 0 then '-' :: natStr (-i).toNat else natStr i.toNat

theorem natDigsF_irrel : ∀ f g n, n ≤ f → n ≤ g → natDigsF f n = natDigsF g n := by
  intro f
  induction f with
  | zero =>
    intro g n hf _
    interval_cases n
    cases g with
    | zero => rfl
    | succ g => simp [natDigsF]
  | succ f ih =>
    intro g n hf hg
    by_cases h10 : n < 10
    · cases g with
      | zero =>
        interval_cases n
        simp [natDigsF]
      | succ g => simp [natDigsF, h10]
    · have hn0 : 0 < n := by omega
      have hdiv : n / 10 < n := Nat.div_lt_self hn0 (by omega)
      cases g with
      | zero => omega
      | succ g =>
        simp only [natDigsF, if_neg h10]
        rw [ih g (n / 10) (by omega) (by omega)]

theorem natDigs_eq (n : Nat) :
    natDigs n = if n < 10 then [n] else natDigs (n / 10) ++ [n % 10] := by
  by_cases h10 : n < 10
  · cases n with
    | zero => simp [natDigs, natDigsF, h10]
    | succ m => simp [natDigs, natDigsF, h10]
  · have hn0 : 0 < n := by omega
    obtain ⟨m, rfl⟩ : ∃ m, n = m + 1 := ⟨n - 1, by omega⟩
    have hdiv : (m + 1) / 10 < m + 1 := Nat.div_lt_self hn0 (by omega)
    simp only [natDigs, natDigsF, if_neg h10]
    rw [natDigsF_irrel m ((m + 1) / 10) ((m + 1) / 10) (by omega) le_rfl]

theorem natDigs_lt_ten : ∀ n, ∀ d ∈ natDigs n, d < 10 := by
  have key : ∀ f n, n ≤ f → ∀ d ∈ natDigs n, d < 10 := by
    intro f
    induction f with
    | zero =>
      intro n hf d hd
      interval_cases n
      simp [natDigs, natDigsF] at hd
      omega
    | succ f ih =>
      intro n hf d hd
      rw [natDigs_eq] at hd
      by_cases h10 : n < 10
      · simp [h10] at hd; omega
      · simp only [if_neg h10, List.mem_append, List.mem_singleton] at hd
        rcases hd with hd | hd
        · exact ih (n / 10) (by omega) d hd
        · omega
  exact fun n => key n n le_rfl

theorem natDigs_ne_nil (n : Nat) : natDigs n ≠ [] := by
  rw [natDigs_eq]
  by_cases h10 : n < 10 <;> simp [h10]

theorem natDigs_val : ∀ n, (natDigs n).foldl (fun a d => 10 * a + d) 0 = n := by
  have key : ∀ f n, n ≤ f → (natDigs n).foldl (fun a d => 10 * a + d) 0 = n := by
    intro f
    induction f with
    | zero =>
      intro n hf
      interval_cases n
      simp [natDigs, natDigsF]
    | succ f ih =>
      intro n hf
      rw [natDigs_eq]
      by_cases h10 : n < 10
      · simp [h10]
      · have hn0 : 0 < n := by omega
        have hdiv : n / 10 < n := Nat.div_lt_self hn0 (by omega)
        simp only [if_neg h10, List.foldl_append, List.foldl_cons, List.foldl_nil]
        rw [ih (n / 10) (by omega)]
        omega
  exact fun n => key n n le_rfl

theorem digitVal_digitChar {d : Nat} (h : d < 10) : digitVal (digitChar d) = d := by
  interval_cases d <;> rfl

theorem isDigit_digitChar {d : Nat} (h : d < 10) : (digitChar d).isDigit = true := by
  interval_cases d <;> rfl

theorem natStr_ne_nil (n : Nat) : natStr n ≠ [] := by
  simp [natStr, natDigs_ne_nil n]

theorem natStr_all_digits (n : Nat) : ∀ c ∈ natStr n, c.isDigit = true := by
  intro c hc
  simp only [natStr, List.mem_map] at hc
  obtain ⟨d, hd, rfl⟩ := hc
  exact isDigit_digitChar (natDigs_lt_ten n d hd)

theorem digitsVal_natStr (n : Nat) : digitsVal (natStr n) = n := by
  have congrFold : ∀ (l : List Nat) (a : Nat), (∀ d ∈ l, d < 10) →
      l.foldl (fun a d => 10 * a + digitVal (digitChar d)) a =
      l.foldl (fun a d => 10 * a + d) a := by
    intro l
    induction l with
    | nil => intro a _; rfl
    | cons d l ih =>
      intro a hl
      simp only [List.foldl_cons]
      rw [digitVal_digitChar (hl d (by simp))]
      exact ih _ (fun x hx => hl x (by simp [hx]))
  have : digitsVal (natStr n) =
      (natDigs n).foldl (fun a d => 10 * a + digitVal (digitChar d)) 0 := by
    simp [digitsVal, natStr, List.foldl_map]
  rw [this, congrFold (natDigs n) 0 (natDigs_lt_ten n), natDigs_val]

theorem intStr_of_nonneg {i : Int} (h : 0 ≤ i) : intStr i = natStr i.toNat := by
  simp [intStr, not_lt.mpr h]

/-- Mapping table: Python dict of old VLAN id to new VLAN id, as an association
list.  The keys of a Python dict are unique; theorems that need this take it as
a hypothesis. -/
abbrev Mapping := List (Int × Int)

/-- Range specification: (old_start, old_end, new_start, new_end). -/
abbrev RangeQ := Int × Int × Int × Int

/-- Configuration failure kinds, one per early-return error branch of
`replace_vlan_ids` (lines 17-47 of the source). -/
inductive ConfigError where
  | noMethod
  | invalidOldRange
  | invalidNewRange
  | sizeMismatch
deriving DecidableEq

/-- Validated engine state after the checks of `replace_vlan_ids` succeed:
the supplied mapping, the supplied ranges, and the derived offset. -/
structure Engine where
  mapping : Option Mapping
  ranges : Option RangeQ
  offset : Option Int
deriving DecidableEq

/-- Python `has_mapping`: `mapping_dict is not None and len(mapping_dict) > 0`. -/
def hasMappingOpt (mo : Option Mapping) : Bool :=
  match mo with
  | some m => !m.isEmpty
  | none => false

/-- Validation phase of `replace_vlan_ids` (lines 17-47): check that a method is
supplied, validate the ranges, and derive the offset. -/
def configure (mo : Option Mapping) (ro : Option RangeQ) : Except ConfigError Engine :=
  if !ro.isSome && !hasMappingOpt mo then .error .noMethod
  else
    match ro with
    | some (os, oe, ns, ne) =>
      if os ≥ oe then .error .invalidOldRange
      else if ns ≥ ne then .error .invalidNewRange
      else if oe - os + 1 ≠ ne - ns + 1 then .error .sizeMismatch
      else .ok ⟨mo, ro, some (ns - os)⟩
    | none => .ok ⟨mo, none, none⟩

/-- Python `has_mapping` for a built engine. -/
def Engine.hasMapping (e : Engine) : Bool := hasMappingOpt e.mapping

/-- Python dict membership plus lookup `mapping_dict[vlan_id]`. -/
def mapLookup (m : Mapping) (k : Int) : Option Int :=
  (m.find? (fun p => p.1 = k)).map (fun p => p.2)

/-- Resolution rule of the callback `replace_vlan` (lines 67-86): mapping first,
then range; the Bool marks a mapping-sourced (true) or range-sourced (false)
replacement. -/
def resolve (e : Engine) (id : Nat) : Option (Int × Bool) :=
  match (if e.hasMapping then Option.bind e.mapping (fun m => mapLookup m (id : Int)) else none) with
  | some v => some (v, true)
  | none =>
    match e.ranges, e.offset with
    | some (os, oe, _, _), some off =>
      if os ≤ (id : Int) ∧ (id : Int) ≤ oe then some ((id : Int) + off, false) else none
    | _, _ => none

/-- The literal part of the regex `set vlanid (\d+)` before the capture group. -/
def kwChars : List Char := "set vlanid ".toList

/-- Attempt to match the regex `set vlanid (\d+)` at the head of `s`: on
success, return the captured maximal digit run and the remainder of the text
after the match. -/
def tryMatch (s : List Char) : Option (List Char × List Char) :=
  if s.take 11 = kwChars then
    let ds := (s.drop 11).takeWhile Char.isDigit
    if ds.isEmpty then none else some (ds, (s.drop 11).dropWhile Char.isDigit)
  else none

/-- One element of the scanned text: a plain character outside any match, or a
matched `set vlanid <digits>` statement holding its captured digit run. -/
inductive Tok where
  | ch (c : Char)
  | stmt (ds : List Char)
deriving DecidableEq

/-- Original text of a token. -/
def Tok.orig : Tok → List Char
  | .ch c => [c]
  | .stmt ds => kwChars ++ ds

/-- Fuel-driven left-to-right scan for non-overlapping matches of
`set vlanid (\d+)`, exactly as `re.sub` walks the text. -/
def tokenizeF : Nat → List Char → List Tok
  | _, [] => []
  | 0, _ :: _ => []
  | f + 1, c :: cs =>
    match tryMatch (c :: cs) with
    | some (ds, rest) => .stmt ds :: tokenizeF f rest
    | none => .ch c :: tokenizeF f cs

/-- Scan of a whole text into tokens. -/
def tokenize (s : List Char) : List Tok := tokenizeF s.length s

/-- Replacement text of one token, mirroring the return values of the callback
`replace_vlan`: `f"set vlanid {new_vlan_id}"` on a hit, `match.group(0)`
otherwise; plain characters pass through. -/
def renderTok (e : Engine) : Tok → List Char
  | .ch c => [c]
  | .stmt ds =>
    match resolve e (digitsVal ds) with
    | some (v, _) => kwChars ++ intStr v
    | none => kwChars ++ ds

/-- The rewritten text produced by `re.sub(pattern, replace_vlan, content)`. -/
def applyText (e : Engine) (s : List Char) : List Char :=
  (tokenize s).flatMap (renderTok e)

/-- Captured VLAN ids of all matches of the pattern in `s`, in text order. -/
def matchedIds (s : List Char) : List Nat :=
  (tokenize s).filterMap (fun t =>
    match t with
    | .stmt ds => some (digitsVal ds)
    | .ch _ => none)

/-- Entry assignment of a Python dict, `d[k] = v`: overwrite in place if the key
is present, append otherwise. -/
def dinsert (k : Nat) (v : Int) (d : List (Nat × Int)) : List (Nat × Int) :=
  if d.any (fun p => p.1 = k) then d.map (fun p => if p.1 = k then (k, v) else p)
  else d ++ [(k, v)]

/-- Lookup in one of the tracking dicts. -/
def dlookup (d : List (Nat × Int)) (k : Nat) : Option Int :=
  (d.find? (fun p => p.1 = k)).map (fun p => p.2)

/-- Key list of a tracking dict. -/
def keysOf (d : List (Nat × Int)) : List Nat := d.map Prod.fst

/-- The three tracking dicts of `replace_vlan_ids` (lines 62-65):
`replacements`, `mapping_replacements`, `range_replacements`. -/
structure Track where
  replacements : List (Nat × Int)
  mappingReps : List (Nat × Int)
  rangeReps : List (Nat × Int)
deriving DecidableEq

/-- Side effect of the callback `replace_vlan` on the tracking dicts for one
scanned token. -/
def stepTok (e : Engine) (acc : Track) (t : Tok) : Track :=
  match t with
  | .ch _ => acc
  | .stmt ds =>
    match resolve e (digitsVal ds) with
    | some (v, true) =>
      ⟨dinsert (digitsVal ds) v acc.replacements,
       dinsert (digitsVal ds) v acc.mappingReps, acc.rangeReps⟩
    | some (v, false) =>
      ⟨dinsert (digitsVal ds) v acc.replacements,
       acc.mappingReps, dinsert (digitsVal ds) v acc.rangeReps⟩
    | none => acc

/-- Final state of the tracking dicts after `re.sub` has walked the text. -/
def runAcc (e : Engine) (s : List Char) : Track :=
  (tokenize s).foldl (stepTok e) ⟨[], [], []⟩

/-- Ascending insertion of an integer into a sorted list. -/
def insAsc (x : Int) : List Int → List Int
  | [] => [x]
  | y :: ys => if x ≤ y then x :: y :: ys else y :: insAsc x ys

/-- Ascending sort, as Python `sorted` orders a set of integers.  The lists it
is applied to have pairwise distinct elements, so the ascending order is
unique. -/
def sortInts (l : List Int) : List Int := l.foldr insAsc []

/-- Ascending-by-key insertion of a dict item into a sorted item list. -/
def insAscP (x : Nat × Int) : List (Nat × Int) → List (Nat × Int)
  | [] => [x]
  | y :: ys => if x.1 ≤ y.1 then x :: y :: ys else y :: insAscP x ys

/-- Python `sorted(d.items())` on a dict: the keys are pairwise distinct, so
sorting by key is the unique ascending order. -/
def sortPairs (l : List (Nat × Int)) : List (Nat × Int) := l.foldr insAscP []

/-- Python `range(a, b + 1)` over integers, as a list. -/
def intRangeList (a b : Int) : List Int :=
  (List.range (b + 1 - a).toNat).map (fun i => a + i)

/-- What the summary block of `replace_vlan_ids` (lines 102-158) reports:
whether the run ended in the explicit empty-result state, the distinct
replacement count, the two per-source item lists sorted by old id, and the two
missing-id lists, present exactly when the code prints them. -/
structure Report where
  emptyResult : Bool
  total : Nat
  mappingItems : List (Nat × Int)
  rangeItems : List (Nat × Int)
  missingMapping : Option (List Int)
  missingRange : Option (List Int)
deriving DecidableEq

/-- Build the report from the final tracking state, following the conditional
structure of lines 102-158: the missing-mapping list is computed and shown only
inside `if replacements:`, `if mapping_replacements:`, `if has_mapping:` and
`if missing_vlans:`; the missing-range list analogously. -/
def mkReport (e : Engine) (acc : Track) : Report :=
  { emptyResult := acc.replacements.isEmpty
  , total := acc.replacements.length
  , mappingItems := sortPairs acc.mappingReps
  , rangeItems := sortPairs acc.rangeReps
  , missingMapping :=
      if acc.replacements ≠ [] ∧ acc.mappingReps ≠ [] ∧ e.hasMapping then
        let expected := ((e.mapping.getD []).map Prod.fst).dedup
        let found := (keysOf acc.mappingReps).map (fun n : Nat => (n : Int))
        let miss := sortInts (expected.filter (fun k => k ∉ found))
        if miss ≠ [] then some miss else none
      else none
  , missingRange :=
      match e.ranges with
      | some (os, oe, _, _) =>
        if acc.replacements ≠ [] ∧ acc.rangeReps ≠ [] then
          let expected := intRangeList os oe
          let found := (keysOf acc.rangeReps).map (fun n : Nat => (n : Int))
          let miss := sortInts (expected.filter (fun k => k ∉ found))
          if miss ≠ [] then some miss else none
        else none
      | none => none }

/-- The engine run of `replace_vlan_ids` stripped of file I/O: validate the
configuration, rewrite the text, and build the summary report. -/
def replaceVlanIds (mo : Option Mapping) (ro : Option RangeQ) (content : List Char) :
    Except ConfigError (List Char × Report) :=
  (configure mo ro).map (fun e => (applyText e content, mkReport e (runAcc e content)))

theorem head_dropWhile {p : Char → Bool} : ∀ (l : List Char) (c : Char),
    (l.dropWhile p).head? = some c → p c = false := by
  intro l
  induction l with
  | nil => intro c h; simp [List.dropWhile] at h
  | cons a l ih =>
    intro c h
    by_cases hpa : p a
    · rw [List.dropWhile_cons_of_pos hpa] at h
      exact ih c h
    · rw [List.dropWhile_cons_of_neg hpa] at h
      simp at h
      subst h
      exact Bool.eq_false_iff.mpr hpa

theorem takeWhile_append_all {p : Char → Bool} :
    ∀ (a b : List Char), (∀ c ∈ a, p c = true) →
    (a ++ b).takeWhile p = a ++ b.takeWhile p := by
  intro a
  induction a with
  | nil => intro b _; simp
  | cons x a ih =>
    intro b h
    have hx : p x = true := h x (by simp)
    simp only [List.cons_append, List.takeWhile_cons_of_pos hx]
    rw [ih b (fun c hc => h c (by simp [hc]))]

theorem dropWhile_append_all {p : Char → Bool} :
    ∀ (a b : List Char), (∀ c ∈ a, p c = true) →
    (a ++ b).dropWhile p = b.dropWhile p := by
  intro a
  induction a with
  | nil => intro b _; simp
  | cons x a ih =>
    intro b h
    have hx : p x = true := h x (by simp)
    simp only [List.cons_append, List.dropWhile_cons_of_pos hx]
    exact ih b (fun c hc => h c (by simp [hc]))

theorem takeWhile_nil_of_head {p : Char → Bool} {b : List Char}
    (h : ∀ c, b.head? = some c → p c = false) : b.takeWhile p = [] := by
  cases b with
  | nil => rfl
  | cons x b =>
    have hx : p x = false := h x rfl
    simp [List.takeWhile_cons, hx]

theorem dropWhile_id_of_head {p : Char → Bool} {b : List Char}
    (h : ∀ c, b.head? = some c → p c = false) : b.dropWhile p = b := by
  cases b with
  | nil => rfl
  | cons x b =>
    have hx : p x = false := h x rfl
    simp [List.dropWhile_cons, hx]

theorem tryMatch_eq_some {s ds rest : List Char} (h : tryMatch s = some (ds, rest)) :
    s = kwChars ++ ds ++ rest ∧ ds ≠ [] ∧ (∀ c ∈ ds, c.isDigit = true) ∧
    (∀ c, rest.head? = some c → c.isDigit = false) := by
  unfold tryMatch at h
  by_cases hkw : s.take 11 = kwChars
  · rw [if_pos hkw] at h
    by_cases hemp : ((s.drop 11).takeWhile Char.isDigit).isEmpty
    · simp [hemp] at h
    · simp only [hemp, Bool.false_eq_true, if_neg, ite_false, Option.some.injEq,
        Prod.mk.injEq] at h
      obtain ⟨hds, hrest⟩ := h
      subst hds
      subst hrest
      refine ⟨?_, ?_, ?_, ?_⟩
      · conv_lhs => rw [← List.take_append_drop 11 s]
        rw [hkw, List.append_assoc]
        congr 1
        rw [List.takeWhile_append_dropWhile]
      · intro hnil
        rw [hnil] at hemp
        simp at hemp
      · intro c hc
        exact List.mem_takeWhile_imp hc
      · intro c hc
        exact head_dropWhile _ c hc
  · rw [if_neg hkw] at h
    exact absurd h (by simp)

theorem tryMatch_concat {ds rest : List Char} (hds : ds ≠ [])
    (hdig : ∀ c ∈ ds, c.isDigit = true)
    (hrest : ∀ c, rest.head? = some c → c.isDigit = false) :
    tryMatch (kwChars ++ ds ++ rest) = some (ds, rest) := by
  have hlen : kwChars.length = 11 := rfl
  have htake : (kwChars ++ (ds ++ rest)).take 11 = kwChars := by
    rw [← hlen, List.take_left]
  have hdrop : (kwChars ++ (ds ++ rest)).drop 11 = ds ++ rest := by
    rw [← hlen, List.drop_left]
  unfold tryMatch
  rw [List.append_assoc, htake, if_pos rfl, hdrop]
  rw [takeWhile_append_all ds rest hdig, takeWhile_nil_of_head hrest,
    List.append_nil]
  rw [dropWhile_append_all ds rest hdig, dropWhile_id_of_head hrest]
  simp [hds]

theorem tryMatch_some_length {s ds rest : List Char}
    (h : tryMatch s = some (ds, rest)) :
    s.length = 11 + ds.length + rest.length ∧ 1 ≤ ds.length := by
  obtain ⟨hs, hds, _, _⟩ := tryMatch_eq_some h
  constructor
  · rw [hs]
    simp [kwChars]
    omega
  · cases ds with
    | nil => exact absurd rfl hds
    | cons x l => simp

theorem tokenizeF_irrel : ∀ f g s, s.length ≤ f → s.length ≤ g →
    tokenizeF f s = tokenizeF g s := by
  intro f
  induction f with
  | zero =>
    intro g s hf _
    have : s = [] := List.eq_nil_of_length_eq_zero (by omega)
    subst this
    cases g <;> rfl
  | succ f ih =>
    intro g s hf hg
    cases s with
    | nil => cases g <;> rfl
    | cons c cs =>
      have hg1 : 1 ≤ g := by simp at hg; omega
      obtain ⟨g', rfl⟩ : ∃ g', g = g' + 1 := ⟨g - 1, by omega⟩
      simp only [tokenizeF]
      cases hm : tryMatch (c :: cs) with
      | some p =>
        obtain ⟨ds, rest⟩ := p
        obtain ⟨hlen, hds1⟩ := tryMatch_some_length hm
        simp only []
        rw [ih g' rest (by simp only [List.length_cons] at hf hlen ⊢; omega)
          (by simp only [List.length_cons] at hg hlen ⊢; omega)]
      | none =>
        simp only []
        rw [ih g' cs (by simp at hf ⊢; omega) (by simp at hg ⊢; omega)]

theorem tokenize_cons_match {c : Char} {cs ds rest : List Char}
    (h : tryMatch (c :: cs) = some (ds, rest)) :
    tokenize (c :: cs) = .stmt ds :: tokenize rest := by
  obtain ⟨hlen, hds1⟩ := tryMatch_some_length h
  unfold tokenize
  simp only [List.length_cons, tokenizeF, h]
  congr 1
  exact tokenizeF_irrel cs.length rest.length rest
    (by simp only [List.length_cons] at hlen ⊢; omega) le_rfl

theorem tokenize_cons_nomatch {c : Char} {cs : List Char}
    (h : tryMatch (c :: cs) = none) :
    tokenize (c :: cs) = .ch c :: tokenize cs := by
  unfold tokenize
  simp only [List.length_cons, tokenizeF, h]

theorem tokenize_orig : ∀ s : List Char, (tokenize s).flatMap Tok.orig = s := by
  have key : ∀ f s, s.length ≤ f → (tokenize s).flatMap Tok.orig = s := by
    intro f
    induction f with
    | zero =>
      intro s hf
      have : s = [] := List.eq_nil_of_length_eq_zero (by omega)
      subst this
      rfl
    | succ f ih =>
      intro s hf
      cases s with
      | nil => rfl
      | cons c cs =>
        cases hm : tryMatch (c :: cs) with
        | some p =>
          obtain ⟨ds, rest⟩ := p
          obtain ⟨hlen, hds1⟩ := tryMatch_some_length hm
          obtain ⟨hs, _, _, _⟩ := tryMatch_eq_some hm
          rw [tokenize_cons_match hm]
          simp only [List.flatMap_cons, Tok.orig]
          rw [ih rest (by simp only [List.length_cons] at hf hlen ⊢; omega)]
          rw [hs, List.append_assoc]
        | none =>
          rw [tokenize_cons_nomatch hm]
          simp only [List.flatMap_cons, Tok.orig, List.singleton_append]
          rw [ih cs (by simp at hf ⊢; omega)]
  exact fun s => key s.length s le_rfl

theorem tokenize_valid : ∀ (s ds : List Char), Tok.stmt ds ∈ tokenize s →
    ds ≠ [] ∧ ∀ c ∈ ds, c.isDigit = true := by
  have key : ∀ f s ds, s.length ≤ f → Tok.stmt ds ∈ tokenize s →
      ds ≠ [] ∧ ∀ c ∈ ds, c.isDigit = true := by
    intro f
    induction f with
    | zero =>
      intro s ds hf hmem
      have : s = [] := List.eq_nil_of_length_eq_zero (by omega)
      subst this
      simp [tokenize, tokenizeF] at hmem
    | succ f ih =>
      intro s ds hf hmem
      cases s with
      | nil => simp [tokenize, tokenizeF] at hmem
      | cons c cs =>
        cases hm : tryMatch (c :: cs) with
        | some p =>
          obtain ⟨ds0, rest⟩ := p
          obtain ⟨hlen, hds1⟩ := tryMatch_some_length hm
          obtain ⟨_, hne, hdig, _⟩ := tryMatch_eq_some hm
          rw [tokenize_cons_match hm] at hmem
          rcases List.mem_cons.mp hmem with heq | hmem2
          · obtain rfl : ds0 = ds := by injection heq with h2; exact h2.symm
            exact ⟨hne, hdig⟩
          · exact ih rest ds
              (by simp only [List.length_cons] at hf hlen ⊢; omega) hmem2
        | none =>
          rw [tokenize_cons_nomatch hm] at hmem
          rcases List.mem_cons.mp hmem with heq | hmem2
          · exact absurd heq (by simp)
          · exact ih cs ds (by simp at hf ⊢; omega) hmem2
  exact fun s ds h => key s.length s ds le_rfl h

/-- Ids captured by `stmt` tokens of a token list. -/
def stmtIds (ts : List Tok) : List Nat :=
  ts.filterMap (fun t =>
    match t with
    | .stmt ds => some (digitsVal ds)
    | .ch _ => none)

theorem matchedIds_eq_stmtIds (s : List Char) : matchedIds s = stmtIds (tokenize s) := rfl


theorem any_key_iff (d : List (Nat × Int)) (k : Nat) :
    d.any (fun p => p.1 = k) = true ↔ k ∈ keysOf d := by
  simp [List.any_eq_true, keysOf, List.mem_map]

theorem keysOf_dinsert (k : Nat) (v : Int) (d : List (Nat × Int)) :
    keysOf (dinsert k v d) = if k ∈ keysOf d then keysOf d else keysOf d ++ [k] := by
  unfold dinsert
  by_cases hk : k ∈ keysOf d
  · rw [if_pos ((any_key_iff d k).mpr hk), if_pos hk]
    simp only [keysOf, List.map_map]
    apply List.map_congr_left
    intro p _
    by_cases hp : p.1 = k
    · simp [Function.comp, hp]
    · simp [Function.comp, hp]
  · rw [if_neg (fun h => hk ((any_key_iff d k).mp h)), if_neg hk]
    simp [keysOf]

theorem keysOf_dinsert_nodup {k : Nat} {v : Int} {d : List (Nat × Int)}
    (h : (keysOf d).Nodup) : (keysOf (dinsert k v d)).Nodup := by
  rw [keysOf_dinsert]
  by_cases hk : k ∈ keysOf d
  · simpa [hk] using h
  · simp only [hk, if_false]
    rw [List.nodup_append]
    exact ⟨h, by simp, by simp [hk]⟩

theorem mem_keysOf_dinsert {x k : Nat} {v : Int} {d : List (Nat × Int)} :
    x ∈ keysOf (dinsert k v d) ↔ x ∈ keysOf d ∨ x = k := by
  rw [keysOf_dinsert]
  by_cases hk : k ∈ keysOf d
  · simp only [hk, if_true]
    constructor
    · exact Or.inl
    · rintro (h | rfl)
      · exact h
      · exact hk
  · simp [hk]

theorem vals_dinsert {P : Nat → Int → Prop} {k : Nat} {v : Int} {d : List (Nat × Int)}
    (hd : ∀ p ∈ d, P p.1 p.2) (hv : P k v) : ∀ p ∈ dinsert k v d, P p.1 p.2 := by
  intro p hp
  unfold dinsert at hp
  by_cases hany : d.any (fun p => p.1 = k) = true
  · rw [if_pos hany] at hp
    simp only [List.mem_map] at hp
    obtain ⟨q, hq, hqe⟩ := hp
    by_cases hq1 : q.1 = k
    · simp only [hq1, if_true] at hqe
      rw [← hqe]
      exact hv
    · simp only [hq1, if_false] at hqe
      rw [← hqe]
      exact hd q hq
  · rw [if_neg hany] at hp
    rcases List.mem_append.mp hp with h | h
    · exact hd p h
    · simp only [List.mem_singleton] at h
      rw [h]
      exact hv

theorem dlookup_eq_none {d : List (Nat × Int)} {k : Nat} (h : k ∉ keysOf d) :
    dlookup d k = none := by
  unfold dlookup
  rw [List.find?_eq_none.mpr]
  · rfl
  · intro p hp
    simp only [decide_eq_true_eq]
    intro hpk
    exact h (List.mem_map.mpr ⟨p, hp, hpk⟩)

theorem dlookup_eq_some {d : List (Nat × Int)} {k : Nat} {v : Int} {b : Bool}
    {e : Engine} (hvals : ∀ p ∈ d, resolve e p.1 = some (p.2, b))
    (hk : k ∈ keysOf d) (hv : resolve e k = some (v, b)) :
    dlookup d k = some v := by
  unfold dlookup
  have hex : ∃ p ∈ d, (fun p : Nat × Int => decide (p.1 = k)) p = true := by
    simp only [keysOf, List.mem_map] at hk
    obtain ⟨p, hp, hpk⟩ := hk
    exact ⟨p, hp, by simp [hpk]⟩
  have hsome : (d.find? (fun p => p.1 = k)).isSome := List.find?_isSome.mpr hex
  obtain ⟨p, hp⟩ := Option.isSome_iff_exists.mp hsome
  rw [hp]
  have hpk : p.1 = k := by simpa using List.find?_some hp
  have hpd : p ∈ d := List.mem_of_find?_eq_some hp
  have := hvals p hpd
  rw [hpk, hv] at this
  simp only [Option.some.injEq, Prod.mk.injEq] at this
  simp [this.1]

theorem stmtIds_cons_stmt (ds : List Char) (ts : List Tok) :
    stmtIds (.stmt ds :: ts) = digitsVal ds :: stmtIds ts := rfl

theorem stmtIds_cons_ch (c : Char) (ts : List Tok) :
    stmtIds (.ch c :: ts) = stmtIds ts := rfl

/-- Invariants of the tracking dicts maintained throughout the scan. -/
def GoodTrack (e : Engine) (acc : Track) : Prop :=
  (keysOf acc.replacements).Nodup ∧ (keysOf acc.mappingReps).Nodup ∧
  (keysOf acc.rangeReps).Nodup ∧
  (∀ p ∈ acc.replacements, ∃ b, resolve e p.1 = some (p.2, b)) ∧
  (∀ p ∈ acc.mappingReps, resolve e p.1 = some (p.2, true)) ∧
  (∀ p ∈ acc.rangeReps, resolve e p.1 = some (p.2, false)) ∧
  (∀ k, k ∈ keysOf acc.mappingReps → k ∈ keysOf acc.replacements) ∧
  (∀ k, k ∈ keysOf acc.rangeReps → k ∈ keysOf acc.replacements)

theorem orIns {A P M s : Prop} (h : P → s) :
    ((A ∨ P) ∨ (M ∧ s)) ↔ (A ∨ ((P ∨ M) ∧ s)) := by tauto

theorem orSkip {A P M s : Prop} (h : P → ¬ s) :
    (A ∨ (M ∧ s)) ↔ (A ∨ ((P ∨ M) ∧ s)) := by tauto

theorem foldl_track (e : Engine) : ∀ (ts : List Tok) (acc : Track), GoodTrack e acc →
    GoodTrack e (ts.foldl (stepTok e) acc) ∧
    (∀ k, k ∈ keysOf (ts.foldl (stepTok e) acc).replacements ↔
      k ∈ keysOf acc.replacements ∨ (k ∈ stmtIds ts ∧ (resolve e k).isSome = true)) ∧
    (∀ k, k ∈ keysOf (ts.foldl (stepTok e) acc).mappingReps ↔
      k ∈ keysOf acc.mappingReps ∨ (k ∈ stmtIds ts ∧ ∃ v, resolve e k = some (v, true))) ∧
    (∀ k, k ∈ keysOf (ts.foldl (stepTok e) acc).rangeReps ↔
      k ∈ keysOf acc.rangeReps ∨ (k ∈ stmtIds ts ∧ ∃ v, resolve e k = some (v, false))) := by
  intro ts
  induction ts with
  | nil =>
    intro acc h
    refine ⟨h, ?_, ?_, ?_⟩ <;> intro k <;> simp [stmtIds]
  | cons t ts ih =>
    intro acc h
    obtain ⟨hnd1, hnd2, hnd3, hv1, hv2, hv3, hsub1, hsub2⟩ := h
    cases t with
    | ch c =>
      have := ih acc ⟨hnd1, hnd2, hnd3, hv1, hv2, hv3, hsub1, hsub2⟩
      simpa [List.foldl_cons, stepTok, stmtIds_cons_ch] using this
    | stmt ds =>
      rw [List.foldl_cons]
      cases hres : resolve e (digitsVal ds) with
      | none =>
        have hstep : stepTok e acc (.stmt ds) = acc := by
          simp [stepTok, hres]
        rw [hstep]
        obtain ⟨hg, hrep, hmap, hrng⟩ :=
          ih acc ⟨hnd1, hnd2, hnd3, hv1, hv2, hv3, hsub1, hsub2⟩
        refine ⟨hg, ?_, ?_, ?_⟩ <;> intro k <;> rw [stmtIds_cons_stmt, List.mem_cons]
        · rw [hrep k]
          exact orSkip (fun hk => by subst hk; simp [hres])
        · rw [hmap k]
          exact orSkip (fun hk => by subst hk; simp [hres])
        · rw [hrng k]
          exact orSkip (fun hk => by subst hk; simp [hres])
      | some p =>
        obtain ⟨v, b⟩ := p
        cases b with
        | true =>
          have hstep : stepTok e acc (.stmt ds) =
              ⟨dinsert (digitsVal ds) v acc.replacements,
               dinsert (digitsVal ds) v acc.mappingReps, acc.rangeReps⟩ := by
            simp [stepTok, hres]
          rw [hstep]
          have hgood2 : GoodTrack e
              ⟨dinsert (digitsVal ds) v acc.replacements,
               dinsert (digitsVal ds) v acc.mappingReps, acc.rangeReps⟩ := by
            refine ⟨keysOf_dinsert_nodup hnd1, keysOf_dinsert_nodup hnd2, hnd3,
              ?_, ?_, ?_, ?_, ?_⟩
            · exact @vals_dinsert (fun a b => ∃ c, resolve e a = some (b, c))
                (digitsVal ds) v acc.replacements hv1 ⟨true, hres⟩
            · exact @vals_dinsert (fun a b => resolve e a = some (b, true))
                (digitsVal ds) v acc.mappingReps hv2 hres
            · exact hv3
            · intro k hk
              rcases mem_keysOf_dinsert.mp hk with hk2 | rfl
              · exact mem_keysOf_dinsert.mpr (Or.inl (hsub1 k hk2))
              · exact mem_keysOf_dinsert.mpr (Or.inr rfl)
            · intro k hk
              exact mem_keysOf_dinsert.mpr (Or.inl (hsub2 k hk))
          obtain ⟨hg, hrep, hmap, hrng⟩ := ih _ hgood2
          refine ⟨hg, ?_, ?_, ?_⟩ <;> intro k <;> rw [stmtIds_cons_stmt, List.mem_cons]
          · rw [hrep k]
            simp only [mem_keysOf_dinsert]
            exact orIns (fun hk => by subst hk; simp [hres])
          · rw [hmap k]
            simp only [mem_keysOf_dinsert]
            exact orIns (fun hk => by subst hk; exact ⟨v, hres⟩)
          · rw [hrng k]
            simp only []
            exact orSkip (fun hk hex => by
              subst hk
              obtain ⟨v2, hv2x⟩ := hex
              rw [hres] at hv2x
              simp at hv2x)
        | false =>
          have hstep : stepTok e acc (.stmt ds) =
              ⟨dinsert (digitsVal ds) v acc.replacements,
               acc.mappingReps, dinsert (digitsVal ds) v acc.rangeReps⟩ := by
            simp [stepTok, hres]
          rw [hstep]
          have hgood2 : GoodTrack e
              ⟨dinsert (digitsVal ds) v acc.replacements,
               acc.mappingReps, dinsert (digitsVal ds) v acc.rangeReps⟩ := by
            refine ⟨keysOf_dinsert_nodup hnd1, hnd2, keysOf_dinsert_nodup hnd3,
              ?_, ?_, ?_, ?_, ?_⟩
            · exact @vals_dinsert (fun a b => ∃ c, resolve e a = some (b, c))
                (digitsVal ds) v acc.replacements hv1 ⟨false, hres⟩
            · exact hv2
            · exact @vals_dinsert (fun a b => resolve e a = some (b, false))
                (digitsVal ds) v acc.rangeReps hv3 hres
            · intro k hk
              exact mem_keysOf_dinsert.mpr (Or.inl (hsub1 k hk))
            · intro k hk
              rcases mem_keysOf_dinsert.mp hk with hk2 | rfl
              · exact mem_keysOf_dinsert.mpr (Or.inl (hsub2 k hk2))
              · exact mem_keysOf_dinsert.mpr (Or.inr rfl)
          obtain ⟨hg, hrep, hmap, hrng⟩ := ih _ hgood2
          refine ⟨hg, ?_, ?_, ?_⟩ <;> intro k <;> rw [stmtIds_cons_stmt, List.mem_cons]
          · rw [hrep k]
            simp only [mem_keysOf_dinsert]
            exact orIns (fun hk => by subst hk; simp [hres])
          · rw [hmap k]
            simp only []
            exact orSkip (fun hk hex => by
              subst hk
              obtain ⟨v2, hv2x⟩ := hex
              rw [hres] at hv2x
              simp at hv2x)
          · rw [hrng k]
            simp only [mem_keysOf_dinsert]
            exact orIns (fun hk => by subst hk; exact ⟨v, hres⟩)

theorem runAcc_good (e : Engine) (s : List Char) : GoodTrack e (runAcc e s) :=
  (foldl_track e (tokenize s) ⟨[], [], []⟩
    ⟨by simp [keysOf], by simp [keysOf], by simp [keysOf],
     by simp, by simp, by simp, by simp [keysOf], by simp [keysOf]⟩).1

theorem mem_keys_replacements (e : Engine) (s : List Char) (k : Nat) :
    k ∈ keysOf (runAcc e s).replacements ↔
    k ∈ matchedIds s ∧ (resolve e k).isSome = true := by
  have := (foldl_track e (tokenize s) ⟨[], [], []⟩
    ⟨by simp [keysOf], by simp [keysOf], by simp [keysOf],
     by simp, by simp, by simp, by simp [keysOf], by simp [keysOf]⟩).2.1 k
  rw [matchedIds_eq_stmtIds]
  simpa [keysOf] using this

theorem mem_keys_mappingReps (e : Engine) (s : List Char) (k : Nat) :
    k ∈ keysOf (runAcc e s).mappingReps ↔
    k ∈ matchedIds s ∧ ∃ v, resolve e k = some (v, true) := by
  have := (foldl_track e (tokenize s) ⟨[], [], []⟩
    ⟨by simp [keysOf], by simp [keysOf], by simp [keysOf],
     by simp, by simp, by simp, by simp [keysOf], by simp [keysOf]⟩).2.2.1 k
  rw [matchedIds_eq_stmtIds]
  simpa [keysOf] using this

theorem mem_keys_rangeReps (e : Engine) (s : List Char) (k : Nat) :
    k ∈ keysOf (runAcc e s).rangeReps ↔
    k ∈ matchedIds s ∧ ∃ v, resolve e k = some (v, false) := by
  have := (foldl_track e (tokenize s) ⟨[], [], []⟩
    ⟨by simp [keysOf], by simp [keysOf], by simp [keysOf],
     by simp, by simp, by simp, by simp [keysOf], by simp [keysOf]⟩).2.2.2 k
  rw [matchedIds_eq_stmtIds]
  simpa [keysOf] using this

theorem configure_ok_fields {mo : Option Mapping} {ro : Option RangeQ} {e : Engine}
    (h : configure mo ro = .ok e) :
    e.mapping = mo ∧ e.ranges = ro ∧ e.offset = ro.map (fun q => q.2.2.1 - q.1) := by
  unfold configure at h
  split at h
  · exact absurd h (by simp)
  · split at h
    next os oe ns ne heq =>
      split at h
      · exact absurd h (by simp)
      · split at h
        · exact absurd h (by simp)
        · split at h
          · exact absurd h (by simp)
          · obtain rfl : Engine.mk mo (some (os, oe, ns, ne)) (some (ns - os)) = e := by
              injection h
            exact ⟨rfl, rfl, rfl⟩
    next heq =>
      obtain rfl : Engine.mk mo none none = e := by injection h
      exact ⟨rfl, rfl, rfl⟩

theorem mapLookup_mem {m : Mapping} {k v : Int} (h : mapLookup m k = some v) :
    (k, v) ∈ m := by
  unfold mapLookup at h
  cases hf : m.find? (fun p => p.1 = k) with
  | none => rw [hf] at h; exact absurd h (by simp)
  | some p =>
    rw [hf] at h
    simp only [Option.map_some', Option.some.injEq] at h
    have hpk : p.1 = k := by simpa using List.find?_some hf
    have hpd : p ∈ m := List.mem_of_find?_eq_some hf
    have : p = (k, v) := by
      cases p
      simp only [Prod.mk.injEq]
      exact ⟨hpk, h⟩
    rw [← this]
    exact hpd

theorem mapLookup_eq_none_iff {m : Mapping} {k : Int} :
    mapLookup m k = none ↔ k ∉ m.map Prod.fst := by
  unfold mapLookup
  constructor
  · intro h hk
    cases hf : m.find? (fun p => p.1 = k) with
    | some p => rw [hf] at h; exact absurd h (by simp)
    | none =>
      obtain ⟨p, hp, hpk⟩ := List.mem_map.mp hk
      have := List.find?_eq_none.mp hf p hp
      simp [hpk] at this
  · intro hk
    rw [List.find?_eq_none.mpr]
    · rfl
    · intro p hp
      simp only [decide_eq_true_eq]
      intro hpk
      exact hk (List.mem_map.mpr ⟨p, hp, hpk⟩)

theorem mapLookup_of_mem {k v : Int} : ∀ {m : Mapping},
    (m.map Prod.fst).Nodup → (k, v) ∈ m → mapLookup m k = some v := by
  intro m
  induction m with
  | nil => intro _ h; simp at h
  | cons p m ih =>
    intro hnd h
    rcases List.mem_cons.mp h with rfl | hm
    · unfold mapLookup
      rw [List.find?_cons_of_pos _ (by simp)]
      rfl
    · simp only [List.map_cons, List.nodup_cons] at hnd
      have hpk : p.1 ≠ k := by
        intro hpk
        exact hnd.1 (hpk ▸ List.mem_map.mpr ⟨(k, v), hm, rfl⟩)
      have hstep : mapLookup (p :: m) k = mapLookup m k := by
        unfold mapLookup
        rw [List.find?_cons_of_neg _ (by simp [hpk])]
      rw [hstep]
      exact ih hnd.2 hm

theorem mapLookup_isSome_of_mem_keys {m : Mapping} {k : Int}
    (h : k ∈ m.map Prod.fst) : ∃ v, mapLookup m k = some v := by
  cases hf : mapLookup m k with
  | some v => exact ⟨v, rfl⟩
  | none => exact absurd h (mapLookup_eq_none_iff.mp hf)

theorem resolve_of_mapLookup {e : Engine} {m : Mapping} {v : Int} {id : Nat}
    (hmap : e.mapping = some m) (hv : mapLookup m (id : Int) = some v) :
    resolve e id = some (v, true) := by
  have hne : m ≠ [] := by
    intro h
    rw [h] at hv
    simp [mapLookup] at hv
  have hhm : e.hasMapping = true := by
    simp [Engine.hasMapping, hmap, hasMappingOpt, hne]
  unfold resolve
  rw [if_pos hhm, hmap]
  simp only [Option.some_bind, hv]

theorem resolve_range_hit {e : Engine} {os oe ns ne off : Int} {id : Nat}
    (hm : ∀ m, e.mapping = some m → mapLookup m (id : Int) = none)
    (hr : e.ranges = some (os, oe, ns, ne)) (ho : e.offset = some off)
    (hin : os ≤ (id : Int) ∧ (id : Int) ≤ oe) :
    resolve e id = some ((id : Int) + off, false) := by
  unfold resolve
  have hmb : (if e.hasMapping then Option.bind e.mapping
      (fun m => mapLookup m (id : Int)) else none) = none := by
    by_cases hhm : e.hasMapping = true
    · rw [if_pos hhm]
      cases hmo : e.mapping with
      | none => rfl
      | some m =>
        simp only [Option.some_bind]
        exact hm m hmo
    · simp [hhm]
  rw [hmb, hr, ho]
  simp [hin]

theorem resolve_map_only {m : Mapping} {id : Nat} :
    resolve ⟨some m, none, none⟩ id =
    (mapLookup m (id : Int)).map (fun v => (v, true)) := by
  by_cases hne : m = []
  · subst hne
    simp [resolve, Engine.hasMapping, hasMappingOpt, mapLookup]
  · have hhm : (Engine.mk (some m) none none).hasMapping = true := by
      simp [Engine.hasMapping, hasMappingOpt, hne]
    unfold resolve
    rw [if_pos hhm]
    cases hv : mapLookup m (id : Int) <;> simp [hv]

theorem flatMap_congr_mem {l : List Tok} {f g : Tok → List Char}
    (h : ∀ x ∈ l, f x = g x) : l.flatMap f = l.flatMap g := by
  induction l with
  | nil => rfl
  | cons x l ih =>
    simp only [List.flatMap_cons]
    rw [h x (by simp), ih (fun y hy => h y (by simp [hy]))]

theorem mem_matchedIds_of_stmt {s ds : List Char} (h : Tok.stmt ds ∈ tokenize s) :
    digitsVal ds ∈ matchedIds s := by
  unfold matchedIds
  exact List.mem_filterMap.mpr ⟨Tok.stmt ds, h, rfl⟩

theorem applyText_id_of_unresolved {e : Engine} {t : List Char}
    (h : ∀ id ∈ matchedIds t, resolve e id = none) : applyText e t = t := by
  unfold applyText
  have hcongr : ∀ x ∈ tokenize t, renderTok e x = Tok.orig x := by
    intro x hx
    cases x with
    | ch c => rfl
    | stmt ds =>
      have hid := h (digitsVal ds) (mem_matchedIds_of_stmt hx)
      simp [renderTok, Tok.orig, hid]
  rw [flatMap_congr_mem hcongr, tokenize_orig]

theorem replacements_nil_iff (e : Engine) (t : List Char) :
    (runAcc e t).replacements = [] ↔ ∀ id ∈ matchedIds t, resolve e id = none := by
  constructor
  · intro hnil id hid
    cases hres : resolve e id with
    | none => rfl
    | some p =>
      have : id ∈ keysOf (runAcc e t).replacements :=
        (mem_keys_replacements e t id).mpr ⟨hid, by simp [hres]⟩
      rw [hnil] at this
      simp [keysOf] at this
  · intro h
    have : ∀ k, k ∉ keysOf (runAcc e t).replacements := by
      intro k hk
      obtain ⟨hid, hsome⟩ := (mem_keys_replacements e t k).mp hk
      rw [h k hid] at hsome
      simp at hsome
    cases hrep : (runAcc e t).replacements with
    | nil => rfl
    | cons p l =>
      exact absurd (by rw [hrep]; simp [keysOf]) (this p.1)

theorem tryMatch_nil : tryMatch ([] : List Char) = none := by decide

theorem tokenize_match {s ds rest : List Char} (h : tryMatch s = some (ds, rest)) :
    tokenize s = .stmt ds :: tokenize rest := by
  cases s with
  | nil => rw [tryMatch_nil] at h; exact absurd h (by simp)
  | cons c cs => exact tokenize_cons_match h

/-- Digit run written back for one matched statement: the decimal form of the
new id on a hit, the captured digits verbatim otherwise. -/
def outDigits (e : Engine) (ds : List Char) : List Char :=
  match resolve e (digitsVal ds) with
  | some (v, _) => intStr v
  | none => ds

theorem renderTok_stmt (e : Engine) (ds : List Char) :
    renderTok e (.stmt ds) = kwChars ++ outDigits e ds := by
  cases hres : resolve e (digitsVal ds) with
  | none => simp [renderTok, outDigits, hres]
  | some p =>
    obtain ⟨v, b⟩ := p
    simp [renderTok, outDigits, hres]

/-- Token-level effect of one rewrite pass. -/
def transformTok (e : Engine) : Tok → Tok
  | .ch c => .ch c
  | .stmt ds => .stmt (outDigits e ds)

/-- Every replacement id the engine can produce is nonnegative. -/
def NonnegOutputs (e : Engine) : Prop :=
  ∀ id v b, resolve e id = some (v, b) → 0 ≤ v

theorem outDigits_valid {e : Engine} {ds : List Char} (hne : ds ≠ [])
    (hdig : ∀ c ∈ ds, c.isDigit = true) (hnn : NonnegOutputs e) :
    outDigits e ds ≠ [] ∧ ∀ c ∈ outDigits e ds, c.isDigit = true := by
  cases hres : resolve e (digitsVal ds) with
  | none =>
    simp only [outDigits, hres]
    exact ⟨hne, hdig⟩
  | some p =>
    obtain ⟨v, b⟩ := p
    have hv : 0 ≤ v := hnn _ _ _ hres
    simp only [outDigits, hres]
    rw [intStr_of_nonneg hv]
    exact ⟨natStr_ne_nil _, natStr_all_digits _⟩

theorem take_append_left {a b : List Char} {n : Nat} (h : n ≤ a.length) :
    (a ++ b).take n = a.take n := by
  rw [List.take_append_eq_append_take]
  have : n - a.length = 0 := by omega
  rw [this]
  simp

theorem render_take_eq (e : Engine) : ∀ (f : Nat) (s : List Char), s.length ≤ f →
    ∀ n, n ≤ 11 → ((tokenize s).flatMap (renderTok e)).take n = s.take n := by
  intro f
  induction f with
  | zero =>
    intro s hf n hn
    have : s = [] := List.eq_nil_of_length_eq_zero (by omega)
    subst this
    rfl
  | succ f ih =>
    intro s hf n hn
    cases s with
    | nil => rfl
    | cons c cs =>
      cases hm : tryMatch (c :: cs) with
      | none =>
        rw [tokenize_cons_nomatch hm]
        simp only [List.flatMap_cons]
        cases n with
        | zero => rfl
        | succ n =>
          have hJ := ih cs (by simp at hf ⊢; omega) n (by omega)
          show (c :: (tokenize cs).flatMap (renderTok e)).take (n + 1) = _
          rw [List.take_succ_cons, List.take_succ_cons, hJ]
      | some p =>
        obtain ⟨ds, rest⟩ := p
        obtain ⟨hs, hdsne, hdig, hrest⟩ := tryMatch_eq_some hm
        rw [tokenize_match hm]
        simp only [List.flatMap_cons, renderTok_stmt]
        rw [List.append_assoc]
        rw [take_append_left (by simp [kwChars]; omega)]
        rw [hs, List.append_assoc]
        rw [take_append_left (by simp [kwChars]; omega)]

theorem takeWhile_eq_nil_iff_head {p : Char → Bool} {b : List Char} :
    b.takeWhile p = [] ↔ ∀ c, b.head? = some c → p c = false := by
  cases b with
  | nil => simp
  | cons x b =>
    by_cases hx : p x
    · rw [List.takeWhile_cons_of_pos hx]
      simp [hx]
    · rw [List.takeWhile_cons_of_neg hx]
      simp only [true_iff]
      intro c hc
      simp only [List.head?_cons, Option.some.injEq] at hc
      subst hc
      exact Bool.eq_false_iff.mpr hx

theorem tryMatch_none_transfer {s s' : List Char}
    (h1 : s'.take 11 = s.take 11) (h2 : (s'.drop 11).head? = (s.drop 11).head?)
    (h : tryMatch s = none) : tryMatch s' = none := by
  unfold tryMatch at h ⊢
  by_cases hkw : s.take 11 = kwChars
  · rw [if_pos hkw] at h
    rw [h1, if_pos hkw]
    by_cases hemp : ((s.drop 11).takeWhile Char.isDigit).isEmpty = true
    · have hhead := takeWhile_eq_nil_iff_head.mp (List.isEmpty_iff.mp hemp)
      have hnil : (s'.drop 11).takeWhile Char.isDigit = [] := by
        rw [takeWhile_eq_nil_iff_head]
        intro c hc
        rw [h2] at hc
        exact hhead c hc
      simp [hnil]
    · rw [if_neg hemp] at h
      exact absurd h (by simp)
  · rw [h1, if_neg hkw]

theorem head?_drop_eq_of_take {l l2 : List Char} {n : Nat}
    (h : l2.take (n + 1) = l.take (n + 1)) : (l2.drop n).head? = (l.drop n).head? := by
  rw [List.head?_drop, List.head?_drop]
  have h2 : (l2.take (n + 1))[n]? = (l.take (n + 1))[n]? := by rw [h]
  rw [List.getElem?_take, List.getElem?_take] at h2
  simpa using h2

theorem head?_take_one {l : List Char} : (l.take 1).head? = l.head? := by
  cases l <;> rfl

theorem renderTok_ch (e : Engine) (c : Char) : renderTok e (.ch c) = [c] := rfl

theorem transformTok_ch (e : Engine) (c : Char) : transformTok e (.ch c) = .ch c := rfl

theorem transformTok_stmt (e : Engine) (ds : List Char) :
    transformTok e (.stmt ds) = .stmt (outDigits e ds) := rfl

theorem tryMatch_none_render (e : Engine) {c : Char} {cs : List Char}
    (hm : tryMatch (c :: cs) = none) :
    tryMatch (c :: (tokenize cs).flatMap (renderTok e)) = none := by
  refine tryMatch_none_transfer ?_ ?_ hm
  · have h1 : (c :: (tokenize cs).flatMap (renderTok e)).take 11 =
        c :: ((tokenize cs).flatMap (renderTok e)).take 10 := rfl
    have h2 : (c :: cs).take 11 = c :: cs.take 10 := rfl
    rw [h1, h2, render_take_eq e cs.length cs le_rfl 10 (by omega)]
  · have h1 : (c :: (tokenize cs).flatMap (renderTok e)).drop 11 =
        ((tokenize cs).flatMap (renderTok e)).drop 10 := rfl
    have h2 : (c :: cs).drop 11 = cs.drop 10 := rfl
    rw [h1, h2]
    exact head?_drop_eq_of_take (render_take_eq e cs.length cs le_rfl 11 le_rfl)

theorem retokenize (e : Engine) (hnn : NonnegOutputs e) :
    ∀ (f : Nat) (s : List Char), s.length ≤ f →
    tokenize ((tokenize s).flatMap (renderTok e)) = (tokenize s).map (transformTok e) := by
  intro f
  induction f with
  | zero =>
    intro s hf
    have : s = [] := List.eq_nil_of_length_eq_zero (by omega)
    subst this
    rfl
  | succ f ih =>
    intro s hf
    cases s with
    | nil => rfl
    | cons c cs =>
      cases hm : tryMatch (c :: cs) with
      | none =>
        rw [tokenize_cons_nomatch hm]
        simp only [List.flatMap_cons, List.map_cons, renderTok_ch, transformTok_ch,
          List.singleton_append]
        rw [tokenize_cons_nomatch (tryMatch_none_render e hm)]
        rw [ih cs (by simp at hf ⊢; omega)]
      | some p =>
        obtain ⟨ds, rest⟩ := p
        obtain ⟨hlen, hds1⟩ := tryMatch_some_length hm
        obtain ⟨hs, hdsne, hdig, hrest⟩ := tryMatch_eq_some hm
        rw [tokenize_match hm]
        simp only [List.flatMap_cons, List.map_cons, renderTok_stmt, transformTok_stmt]
        have hJhead : ∀ c2, ((tokenize rest).flatMap (renderTok e)).head? = some c2 →
            c2.isDigit = false := by
          intro c2 hc2
          have hagree : ((tokenize rest).flatMap (renderTok e)).head? = rest.head? := by
            rw [← head?_take_one, ← @head?_take_one rest]
            rw [render_take_eq e rest.length rest le_rfl 1 (by omega)]
          rw [hagree] at hc2
          exact hrest c2 hc2
        have hout := outDigits_valid hdsne hdig hnn
        have htm : tryMatch (kwChars ++ outDigits e ds ++
            (tokenize rest).flatMap (renderTok e)) =
            some (outDigits e ds, (tokenize rest).flatMap (renderTok e)) :=
          tryMatch_concat hout.1 hout.2 hJhead
        rw [tokenize_match htm]
        rw [ih rest (by simp only [List.length_cons] at hf hlen ⊢; omega)]

theorem outDigits_some {e : Engine} {ds : List Char} {v : Int} {b : Bool}
    (h : resolve e (digitsVal ds) = some (v, b)) : outDigits e ds = intStr v := by
  simp [outDigits, h]

theorem outDigits_none {e : Engine} {ds : List Char}
    (h : resolve e (digitsVal ds) = none) : outDigits e ds = ds := by
  simp [outDigits, h]

theorem mapLookup_swap {m : Mapping} {k v : Int}
    (hvnd : (m.map Prod.snd).Nodup) (h : (k, v) ∈ m) :
    mapLookup (m.map Prod.swap) v = some k := by
  apply mapLookup_of_mem
  · rw [List.map_map]
    have hcomp : (Prod.fst ∘ Prod.swap : Int × Int → Int) = Prod.snd := rfl
    rw [hcomp]
    exact hvnd
  · exact List.mem_map.mpr ⟨(k, v), h, rfl⟩

theorem nonnegOutputs_map_only {m : Mapping} (hpos : ∀ p ∈ m, 0 ≤ p.2) :
    NonnegOutputs ⟨some m, none, none⟩ := by
  intro id v b hres
  rw [resolve_map_only] at hres
  cases hl : mapLookup m (id : Int) with
  | none => rw [hl] at hres; exact absurd hres (by simp)
  | some w =>
    rw [hl] at hres
    simp only [Option.map_some', Option.some.injEq, Prod.mk.injEq] at hres
    obtain ⟨rfl, _⟩ := hres
    exact hpos _ (mapLookup_mem hl)

theorem roundtrip_general (m : Mapping)
    (hvnd : (m.map Prod.snd).Nodup)
    (hpos : ∀ p ∈ m, 0 ≤ p.2)
    (t : List Char)
    (hcanon : ∀ ds, Tok.stmt ds ∈ tokenize t → ds = natStr (digitsVal ds))
    (hclosed : ∀ id ∈ matchedIds t,
      (id : Int) ∈ m.map Prod.snd → (id : Int) ∈ m.map Prod.fst) :
    applyText ⟨some (m.map Prod.swap), none, none⟩
      (applyText ⟨some m, none, none⟩ t) = t := by
  have hnn1 : NonnegOutputs ⟨some m, none, none⟩ := nonnegOutputs_map_only hpos
  unfold applyText
  rw [retokenize ⟨some m, none, none⟩ hnn1 t.length t le_rfl]
  rw [List.flatMap_map]
  have hcongr : ∀ tok ∈ tokenize t,
      renderTok ⟨some (m.map Prod.swap), none, none⟩
        (transformTok ⟨some m, none, none⟩ tok) = Tok.orig tok := by
    intro tok htok
    cases tok with
    | ch c => rfl
    | stmt ds =>
      have hcan := hcanon ds htok
      rw [transformTok_stmt]
      cases hr : resolve ⟨some m, none, none⟩ (digitsVal ds) with
      | some p =>
        obtain ⟨v, b⟩ := p
        have hl : mapLookup m ((digitsVal ds : Nat) : Int) = some v := by
          rw [resolve_map_only] at hr
          cases hl2 : mapLookup m ((digitsVal ds : Nat) : Int) with
          | none => rw [hl2] at hr; exact absurd hr (by simp)
          | some w =>
            rw [hl2] at hr
            simp only [Option.map_some', Option.some.injEq, Prod.mk.injEq] at hr
            rw [hr.1]
        have hmem : (((digitsVal ds : Nat) : Int), v) ∈ m := mapLookup_mem hl
        have hv0 : 0 ≤ v := hpos _ hmem
        rw [outDigits_some hr, intStr_of_nonneg hv0]
        rw [renderTok_stmt]
        have hdv : digitsVal (natStr v.toNat) = v.toNat := digitsVal_natStr _
        have hlswap : mapLookup (m.map Prod.swap) ((v.toNat : Nat) : Int) =
            some ((digitsVal ds : Nat) : Int) := by
          rw [Int.toNat_of_nonneg hv0]
          exact mapLookup_swap hvnd hmem
        have hres2 : resolve ⟨some (m.map Prod.swap), none, none⟩
            (digitsVal (natStr v.toNat)) =
            some (((digitsVal ds : Nat) : Int), true) := by
          rw [hdv]
          exact resolve_of_mapLookup rfl hlswap
        rw [outDigits_some hres2]
        rw [intStr_of_nonneg (by positivity), Int.toNat_natCast]
        rw [Tok.orig, ← hcan]
      | none =>
        rw [outDigits_none hr]
        have hres2 : resolve ⟨some (m.map Prod.swap), none, none⟩ (digitsVal ds) =
            none := by
          rw [resolve_map_only]
          have hnone : mapLookup (m.map Prod.swap) ((digitsVal ds : Nat) : Int) = none := by
            rw [mapLookup_eq_none_iff, List.map_map]
            have hcomp : (Prod.fst ∘ Prod.swap : Int × Int → Int) = Prod.snd := rfl
            rw [hcomp]
            intro hmemv
            have hmemk := hclosed (digitsVal ds) (mem_matchedIds_of_stmt htok) hmemv
            obtain ⟨w, hw⟩ := mapLookup_isSome_of_mem_keys hmemk
            rw [resolve_map_only, hw] at hr
            simp at hr
          rw [hnone]
          rfl
        rw [renderTok_stmt, outDigits_none hres2, Tok.orig]
  rw [flatMap_congr_mem hcongr, tokenize_orig]

theorem mem_insAsc {x k : Int} : ∀ {l : List Int}, k ∈ insAsc x l ↔ k ∈ x :: l := by
  intro l
  induction l with
  | nil => simp [insAsc]
  | cons y ys ih =>
    unfold insAsc
    by_cases hxy : x ≤ y
    · simp [hxy]
    · simp only [hxy, if_false, List.mem_cons, ih]
      tauto

theorem mem_sortInts {k : Int} : ∀ {l : List Int}, k ∈ sortInts l ↔ k ∈ l := by
  intro l
  induction l with
  | nil => simp [sortInts]
  | cons x xs ih =>
    unfold sortInts at ih ⊢
    simp only [List.foldr_cons, mem_insAsc, List.mem_cons, ih]

theorem sorted_insAsc {x : Int} : ∀ {l : List Int},
    l.Sorted (· ≤ ·) → (insAsc x l).Sorted (· ≤ ·) := by
  intro l
  induction l with
  | nil => intro _; simp [insAsc]
  | cons y ys ih =>
    intro hs
    unfold insAsc
    rw [List.sorted_cons] at hs
    by_cases hxy : x ≤ y
    · rw [if_pos hxy, List.sorted_cons]
      constructor
      · intro b hb
        rcases List.mem_cons.mp hb with rfl | hb2
        · exact hxy
        · exact le_trans hxy (hs.1 b hb2)
      · rw [List.sorted_cons]
        exact hs
    · rw [if_neg hxy, List.sorted_cons]
      constructor
      · intro b hb
        rcases List.mem_cons.mp (mem_insAsc.mp hb) with rfl | hb2
        · omega
        · exact hs.1 b hb2
      · exact ih hs.2

theorem sorted_sortInts : ∀ (l : List Int), (sortInts l).Sorted (· ≤ ·) := by
  intro l
  induction l with
  | nil => simp [sortInts]
  | cons x xs ih =>
    unfold sortInts at ih ⊢
    rw [List.foldr_cons]
    exact sorted_insAsc ih

theorem length_insAscP (x : Nat × Int) : ∀ (l : List (Nat × Int)),
    (insAscP x l).length = l.length + 1 := by
  intro l
  induction l with
  | nil => rfl
  | cons y ys ih =>
    unfold insAscP
    by_cases hxy : x.1 ≤ y.1
    · simp [hxy]
    · simp only [hxy, if_false, List.length_cons, ih]

theorem length_sortPairs : ∀ (l : List (Nat × Int)), (sortPairs l).length = l.length := by
  intro l
  induction l with
  | nil => rfl
  | cons x xs ih =>
    unfold sortPairs at ih ⊢
    rw [List.foldr_cons, length_insAscP, ih, List.length_cons]

theorem resolve_some_true_elim {e : Engine} {id : Nat} {v : Int}
    (h : resolve e id = some (v, true)) :
    e.hasMapping = true ∧ ∃ m, e.mapping = some m ∧ mapLookup m (id : Int) = some v := by
  unfold resolve at h
  by_cases hhm : e.hasMapping = true
  · rw [if_pos hhm] at h
    cases hmo : e.mapping with
    | none =>
      rw [hmo] at h
      simp only [Option.none_bind] at h
      exact absurd h (by
        cases hr : e.ranges with
        | none => simp [hr]
        | some q =>
          obtain ⟨os, oe, ns, ne⟩ := q
          cases ho : e.offset with
          | none => simp [hr, ho]
          | some off =>
            simp only [hr, ho]
            by_cases hin : os ≤ (id : Int) ∧ (id : Int) ≤ oe <;> simp [hin])
    | some m =>
      rw [hmo] at h
      simp only [Option.some_bind] at h
      cases hl : mapLookup m (id : Int) with
      | none =>
        rw [hl] at h
        exact absurd h (by
          cases hr : e.ranges with
          | none => simp [hr]
          | some q =>
            obtain ⟨os, oe, ns, ne⟩ := q
            cases ho : e.offset with
            | none => simp [hr, ho]
            | some off =>
              simp only [hr, ho]
              by_cases hin : os ≤ (id : Int) ∧ (id : Int) ≤ oe <;> simp [hin])
      | some w =>
        rw [hl] at h
        simp only [Option.some.injEq, Prod.mk.injEq] at h
        exact ⟨hhm, m, rfl, by rw [hl, h.1]⟩
  · rw [if_neg hhm] at h
    exact absurd h (by
      cases hr : e.ranges with
      | none => simp [hr]
      | some q =>
        obtain ⟨os, oe, ns, ne⟩ := q
        cases ho : e.offset with
        | none => simp [hr, ho]
        | some off =>
          simp only [hr, ho]
          by_cases hin : os ≤ (id : Int) ∧ (id : Int) ≤ oe <;> simp [hin])

theorem keysOf_nil_iff {d : List (Nat × Int)} : keysOf d = [] ↔ d = [] := by
  unfold keysOf
  exact List.map_eq_nil_iff

theorem mappingReps_nil_iff (e : Engine) (t : List Char) :
    (runAcc e t).mappingReps = [] ↔
    ∀ id ∈ matchedIds t, ∀ v, resolve e id ≠ some (v, true) := by
  constructor
  · intro hnil id hid v hres
    have : id ∈ keysOf (runAcc e t).mappingReps :=
      (mem_keys_mappingReps e t id).mpr ⟨hid, v, hres⟩
    rw [hnil] at this
    simp [keysOf] at this
  · intro h
    rw [← keysOf_nil_iff]
    cases hrep : keysOf (runAcc e t).mappingReps with
    | nil => rfl
    | cons k l =>
      have hk : k ∈ keysOf (runAcc e t).mappingReps := by rw [hrep]; simp
      obtain ⟨hid, v, hres⟩ := (mem_keys_mappingReps e t k).mp hk
      exact absurd hres (h k hid v)

/-- The unmatched-mapping-keys list as the spec describes it: the table keys
minus the ids actually matched in the text, ascending. -/
def specMissM (m : Mapping) (t : List Char) : List Int :=
  sortInts ((m.map Prod.fst).dedup.filter
    (fun k => decide (k ∉ (matchedIds t).map (fun n : Nat => (n : Int)))))

theorem missing_filter_eq {e : Engine} {m : Mapping} (hmap : e.mapping = some m)
    (t : List Char) :
    ((m.map Prod.fst).dedup.filter
      (fun k => decide (k ∉ (keysOf (runAcc e t).mappingReps).map (fun n : Nat => (n : Int))))) =
    ((m.map Prod.fst).dedup.filter
      (fun k => decide (k ∉ (matchedIds t).map (fun n : Nat => (n : Int))))) := by
  apply List.filter_congr
  intro k hk
  rw [List.mem_dedup] at hk
  simp only [decide_eq_decide]
  constructor
  · intro hnotf hmat
    apply hnotf
    obtain ⟨n, hn, rfl⟩ := List.mem_map.mp hmat
    obtain ⟨v, hv⟩ := mapLookup_isSome_of_mem_keys hk
    have hres : resolve e n = some (v, true) := resolve_of_mapLookup hmap hv
    exact List.mem_map.mpr ⟨n, (mem_keys_mappingReps e t n).mpr ⟨hn, v, hres⟩, rfl⟩
  · intro hnotm hfound
    apply hnotm
    obtain ⟨n, hn, rfl⟩ := List.mem_map.mp hfound
    exact List.mem_map.mpr ⟨n, ((mem_keys_mappingReps e t n).mp hn).1, rfl⟩

theorem configure_some_eq (mo : Option Mapping) (os oe ns ne : Int) :
    configure mo (some (os, oe, ns, ne)) =
    (if os ≥ oe then .error .invalidOldRange
     else if ns ≥ ne then .error .invalidNewRange
     else if oe - os + 1 ≠ ne - ns + 1 then .error .sizeMismatch
     else .ok ⟨mo, some (os, oe, ns, ne), some (ns - os)⟩) := by
  unfold configure
  rw [if_neg (by simp)]

theorem configure_none_eq (mo : Option Mapping) :
    configure mo none =
    (if hasMappingOpt mo = false then .error .noMethod else .ok ⟨mo, none, none⟩) := by
  unfold configure
  by_cases hm : hasMappingOpt mo = true
  · rw [if_neg (by simp [hm]), if_neg (by simp [hm])]
  · have hm2 : hasMappingOpt mo = false := Bool.eq_false_iff.mpr hm
    rw [if_pos (by simp [hm2]), if_pos hm2]

theorem configure_error_iff (mo : Option Mapping) (ro : Option RangeQ) :
    (∃ err, configure mo ro = .error err) ↔
    (hasMappingOpt mo = false ∧ ro = none) ∨
    (∃ os oe ns ne, ro = some (os, oe, ns, ne) ∧
      (os ≥ oe ∨ ns ≥ ne ∨ oe - os + 1 ≠ ne - ns + 1)) := by
  cases ro with
  | none =>
    rw [configure_none_eq]
    by_cases hm : hasMappingOpt mo = false
    · rw [if_pos hm]
      constructor
      · intro _
        exact Or.inl ⟨hm, rfl⟩
      · intro _
        exact ⟨.noMethod, rfl⟩
    · rw [if_neg hm]
      constructor
      · rintro ⟨err, herr⟩
        exact absurd herr (by simp)
      · rintro (⟨hf, _⟩ | ⟨os, oe, ns, ne, heq, _⟩)
        · exact absurd hf hm
        · exact absurd heq (by simp)
  | some q =>
    obtain ⟨os, oe, ns, ne⟩ := q
    rw [configure_some_eq]
    constructor
    · rintro ⟨err, herr⟩
      refine Or.inr ⟨os, oe, ns, ne, rfl, ?_⟩
      by_cases h1 : os ≥ oe
      · exact Or.inl h1
      rw [if_neg h1] at herr
      by_cases h2 : ns ≥ ne
      · exact Or.inr (Or.inl h2)
      rw [if_neg h2] at herr
      by_cases h3 : oe - os + 1 ≠ ne - ns + 1
      · exact Or.inr (Or.inr h3)
      rw [if_neg h3] at herr
      exact absurd herr (by simp)
    · rintro (⟨_, heq⟩ | ⟨os2, oe2, ns2, ne2, heq, hbad⟩)
      · exact absurd heq (by simp)
      · have heq2 : (os, oe, ns, ne) = (os2, oe2, ns2, ne2) := by injection heq
        obtain ⟨rfl, rfl, rfl, rfl⟩ : os = os2 ∧ oe = oe2 ∧ ns = ns2 ∧ ne = ne2 := by
          simpa [Prod.ext_iff] using heq2
        by_cases h1 : os ≥ oe
        · exact ⟨.invalidOldRange, by rw [if_pos h1]⟩
        by_cases h2 : ns ≥ ne
        · exact ⟨.invalidNewRange, by rw [if_neg h1, if_pos h2]⟩
        by_cases h3 : oe - os + 1 ≠ ne - ns + 1
        · exact ⟨.sizeMismatch, by rw [if_neg h1, if_neg h2, if_pos h3]⟩
        · rcases hbad with h | h | h
          · exact absurd h h1
          · exact absurd h h2
          · exact absurd h h3

/-- Decidable test for a mapping-sourced hit. -/
def isMapHit (e : Engine) (id : Nat) : Bool :=
  match resolve e id with
  | some (_, true) => true
  | _ => false

theorem isMapHit_iff {e : Engine} {id : Nat} :
    isMapHit e id = true ↔ ∃ v, resolve e id = some (v, true) := by
  unfold isMapHit
  cases hres : resolve e id with
  | none => simp
  | some p =>
    obtain ⟨v, b⟩ := p
    cases b with
    | true => simp
    | false => simp

theorem resolve_eq_none {e : Engine} {id : Nat}
    (hm : ∀ m', e.mapping = some m' → mapLookup m' (id : Int) = none)
    (hr : ∀ os oe ns ne, e.ranges = some (os, oe, ns, ne) →
      ¬(os ≤ (id : Int) ∧ (id : Int) ≤ oe)) :
    resolve e id = none := by
  unfold resolve
  have hmb : (if e.hasMapping then Option.bind e.mapping
      (fun m => mapLookup m (id : Int)) else none) = none := by
    by_cases hhm : e.hasMapping = true
    · rw [if_pos hhm]
      cases hmo : e.mapping with
      | none => rfl
      | some m =>
        simp only [Option.some_bind]
        exact hm m hmo
    · simp [hhm]
  rw [hmb]
  cases hrg : e.ranges with
  | none => cases e.offset <;> rfl
  | some q =>
    obtain ⟨os, oe, ns, ne⟩ := q
    cases ho : e.offset with
    | none => rfl
    | some off => simp [hr os oe ns ne hrg]

theorem total_eq_distinct (e : Engine) (t : List Char) :
    (runAcc e t).replacements.length =
    ((matchedIds t).filter (fun id => (resolve e id).isSome)).dedup.length := by
  have hnd1 : (keysOf (runAcc e t).replacements).Nodup := (runAcc_good e t).1
  have hperm : (keysOf (runAcc e t).replacements).Perm
      ((matchedIds t).filter (fun id => (resolve e id).isSome)).dedup := by
    rw [List.perm_ext_iff_of_nodup hnd1 (List.nodup_dedup _)]
    intro a
    rw [mem_keys_replacements, List.mem_dedup, List.mem_filter]
  have hl : (keysOf (runAcc e t).replacements).length =
      (runAcc e t).replacements.length := by
    simp [keysOf]
  rw [← hl, hperm.length_eq]

/-- A matched digit run is canonical when it carries no leading zeros, meaning
it is exactly the decimal print of its value. -/
def canonTok : Tok → Bool
  | .ch _ => true
  | .stmt ds => decide (ds = natStr (digitsVal ds))

/-- C1: for every occurrence of the VLAN-setting pattern whose captured id is a
key of the configured MappingTable, apply replaces it with the mapped id and
records it as mapping-sourced (and not range-sourced), even when the id also
lies inside the configured OldRange: the rendered text is the mapping target,
never old_id plus offset. -/
theorem claim1_mapping_precedence (m : Mapping) (ro : Option RangeQ) (e : Engine)
    (hcfg : configure (some m) ro = .ok e) (t ds : List Char)
    (htok : Tok.stmt ds ∈ tokenize t) (v : Int)
    (hv : mapLookup m ((digitsVal ds : Nat) : Int) = some v) :
    renderTok e (.stmt ds) = kwChars ++ intStr v ∧
    dlookup (runAcc e t).mappingReps (digitsVal ds) = some v ∧
    digitsVal ds ∉ keysOf (runAcc e t).rangeReps := by
  have hmap : e.mapping = some m := (configure_ok_fields hcfg).1
  have hres : resolve e (digitsVal ds) = some (v, true) := resolve_of_mapLookup hmap hv
  refine ⟨?_, ?_, ?_⟩
  · rw [renderTok_stmt, outDigits_some hres]
  · have hkey : digitsVal ds ∈ keysOf (runAcc e t).mappingReps :=
      (mem_keys_mappingReps e t _).mpr ⟨mem_matchedIds_of_stmt htok, v, hres⟩
    exact dlookup_eq_some (runAcc_good e t).2.2.2.2.1 hkey hres
  · intro hk
    obtain ⟨_, w, hw⟩ := (mem_keys_rangeReps e t _).mp hk
    rw [hres] at hw
    simp at hw

theorem claim1_witness :
    (renderTok ⟨some [(100, 999)], some (50, 150, 450, 550), some 400⟩
      (.stmt ['1', '0', '0']) = kwChars ++ intStr 999 ∧
    dlookup (runAcc ⟨some [(100, 999)], some (50, 150, 450, 550), some 400⟩
      "set vlanid 100".toList).mappingReps (digitsVal ['1', '0', '0']) = some 999 ∧
    digitsVal ['1', '0', '0'] ∉ keysOf
      (runAcc ⟨some [(100, 999)], some (50, 150, 450, 550), some 400⟩
        "set vlanid 100".toList).rangeReps) ∧
    kwChars ++ intStr 999 ≠ kwChars ++ intStr ((100 : Int) + 400) :=
  ⟨claim1_mapping_precedence [(100, 999)] (some (50, 150, 450, 550))
    ⟨some [(100, 999)], some (50, 150, 450, 550), some 400⟩ rfl
    "set vlanid 100".toList ['1', '0', '0'] (by decide) 999 (by decide),
   by decide⟩

/-- C2: for every occurrence whose captured id is not a MappingTable key but
lies within the configured old range, apply replaces it with
id plus (new_start minus old_start) and records it as range-sourced (and not
mapping-sourced). -/
theorem claim2_range_replacement (mo : Option Mapping) (os oe ns ne : Int) (e : Engine)
    (hcfg : configure mo (some (os, oe, ns, ne)) = .ok e) (t ds : List Char)
    (htok : Tok.stmt ds ∈ tokenize t)
    (hnk : ∀ m, mo = some m → mapLookup m ((digitsVal ds : Nat) : Int) = none)
    (hin : os ≤ (digitsVal ds : Int) ∧ (digitsVal ds : Int) ≤ oe) :
    renderTok e (.stmt ds) = kwChars ++ intStr ((digitsVal ds : Int) + (ns - os)) ∧
    dlookup (runAcc e t).rangeReps (digitsVal ds) =
      some ((digitsVal ds : Int) + (ns - os)) ∧
    digitsVal ds ∉ keysOf (runAcc e t).mappingReps := by
  obtain ⟨hmap, hrng, hoff⟩ := configure_ok_fields hcfg
  have hres : resolve e (digitsVal ds) =
      some ((digitsVal ds : Int) + (ns - os), false) :=
    resolve_range_hit (fun m hm => hnk m (by rw [← hmap]; exact hm)) hrng
      (by rw [hoff]; rfl) hin
  refine ⟨?_, ?_, ?_⟩
  · rw [renderTok_stmt, outDigits_some hres]
  · have hkey : digitsVal ds ∈ keysOf (runAcc e t).rangeReps :=
      (mem_keys_rangeReps e t _).mpr ⟨mem_matchedIds_of_stmt htok, _, hres⟩
    exact dlookup_eq_some (runAcc_good e t).2.2.2.2.2.1 hkey hres
  · intro hk
    obtain ⟨_, w, hw⟩ := (mem_keys_mappingReps e t _).mp hk
    rw [hres] at hw
    simp at hw

theorem claim2_witness :
    renderTok ⟨none, some (100, 200, 500, 600), some 400⟩
      (.stmt ['1', '5', '0']) = kwChars ++ intStr ((150 : Int) + (500 - 100)) ∧
    dlookup (runAcc ⟨none, some (100, 200, 500, 600), some 400⟩
      "set vlanid 150\n".toList).rangeReps (digitsVal ['1', '5', '0']) =
      some ((150 : Int) + (500 - 100)) ∧
    digitsVal ['1', '5', '0'] ∉ keysOf
      (runAcc ⟨none, some (100, 200, 500, 600), some 400⟩
        "set vlanid 150\n".toList).mappingReps := by
  have h := claim2_range_replacement none 100 200 500 600
    ⟨none, some (100, 200, 500, 600), some 400⟩ rfl
    "set vlanid 150\n".toList ['1', '5', '0'] (by decide)
    (fun m hm => absurd hm (by simp)) (by decide)
  exact ⟨h.1, h.2.1, h.2.2⟩

/-- C3: configure fails exactly when no replacement method is supplied or a
supplied range is invalid (inverted old range, inverted new range, or size
mismatch); otherwise it succeeds holding the inputs and the derived offset
new_start minus old_start; the range pair old 100-200, new 500-599 fails with
a size mismatch. -/
theorem claim3_configure (mo : Option Mapping) (ro : Option RangeQ) :
    ((∃ err, configure mo ro = .error err) ↔
      (hasMappingOpt mo = false ∧ ro = none) ∨
      (∃ os oe ns ne, ro = some (os, oe, ns, ne) ∧
        (os ≥ oe ∨ ns ≥ ne ∨ oe - os + 1 ≠ ne - ns + 1))) ∧
    (∀ e, configure mo ro = .ok e →
      e.mapping = mo ∧ e.ranges = ro ∧ e.offset = ro.map (fun q => q.2.2.1 - q.1)) ∧
    configure mo (some (100, 200, 500, 599)) = .error .sizeMismatch := by
  refine ⟨configure_error_iff mo ro, fun e h => configure_ok_fields h, ?_⟩
  rw [configure_some_eq]
  rfl

theorem claim3_witness :
    configure (some [(151, 2500)]) (some (100, 200, 500, 599)) =
      .error .sizeMismatch ∧
    (Engine.mk none (some (100, 200, 500, 600)) (some 400)).offset =
      (some ((100 : Int), (200 : Int), (500 : Int), (600 : Int))).map
        (fun q => q.2.2.1 - q.1) :=
  ⟨(claim3_configure (some [(151, 2500)]) (some (100, 200, 500, 599))).2.2,
   ((claim3_configure none (some (100, 200, 500, 600))).2.1
     ⟨none, some (100, 200, 500, 600), some 400⟩ rfl).2.2⟩

/-- C4 counterexample: with mapping table 999 to 1 and a text never containing
vlanid 999, the code prints no unmatched-mapping-keys report at all (the block
is nested under a successful-replacement check), so the report does not contain
the list with exactly 999, contradicting the claim. -/
theorem claim4_counterexample :
    configure (some [(999, 1)]) none = .ok ⟨some [(999, 1)], none, none⟩ ∧
    (mkReport ⟨some [(999, 1)], none, none⟩
      (runAcc ⟨some [(999, 1)], none, none⟩
        "set vlanid 5\n".toList)).missingMapping = none ∧
    (mkReport ⟨some [(999, 1)], none, none⟩
      (runAcc ⟨some [(999, 1)], none, none⟩
        "set vlanid 5\n".toList)).missingMapping ≠ some [999] :=
  ⟨rfl, by decide, by decide⟩

/-- C4 amended: the unmatched-mapping-keys report is emitted exactly when at
least one mapping-sourced replacement occurred in the text and the difference
set is non-empty; when emitted, it lists exactly the MappingTable keys minus
the ids matched in the text, sorted ascending. -/
theorem claim4_missing_mapping (m : Mapping) (ro : Option RangeQ) (e : Engine)
    (hcfg : configure (some m) ro = .ok e) (t : List Char) :
    ((mkReport e (runAcc e t)).missingMapping ≠ none ↔
      (∃ id ∈ matchedIds t, isMapHit e id = true) ∧ specMissM m t ≠ []) ∧
    (∀ l, (mkReport e (runAcc e t)).missingMapping = some l →
      l = specMissM m t ∧ l.Sorted (· ≤ ·) ∧
      (∀ k, k ∈ l ↔ k ∈ m.map Prod.fst ∧
        ∀ id ∈ matchedIds t, (id : Int) ≠ k)) := by
  have hmap : e.mapping = some m := (configure_ok_fields hcfg).1
  have hmissEq : sortInts (((e.mapping.getD []).map Prod.fst).dedup.filter
      (fun k => decide (k ∉ (keysOf (runAcc e t).mappingReps).map
        (fun n : Nat => (n : Int))))) = specMissM m t := by
    rw [hmap]
    show sortInts ((m.map Prod.fst).dedup.filter _) = _
    rw [missing_filter_eq hmap t]
    rfl
  have hrepfield : (mkReport e (runAcc e t)).missingMapping =
      if (runAcc e t).replacements ≠ [] ∧ (runAcc e t).mappingReps ≠ [] ∧
          e.hasMapping then
        (if specMissM m t ≠ [] then some (specMissM m t) else none)
      else none := by
    show (if (runAcc e t).replacements ≠ [] ∧ (runAcc e t).mappingReps ≠ [] ∧
        e.hasMapping then _ else none) = _
    rw [hmissEq]
  have hhit : (runAcc e t).mappingReps ≠ [] ↔
      ∃ id ∈ matchedIds t, isMapHit e id = true := by
    constructor
    · intro hne
      cases hrep : (runAcc e t).mappingReps with
      | nil => exact absurd hrep hne
      | cons p l =>
        have hk : p.1 ∈ keysOf (runAcc e t).mappingReps := by rw [hrep]; simp [keysOf]
        obtain ⟨hid, v, hres⟩ := (mem_keys_mappingReps e t p.1).mp hk
        exact ⟨p.1, hid, isMapHit_iff.mpr ⟨v, hres⟩⟩
    · rintro ⟨id, hid, hhit⟩
      obtain ⟨v, hres⟩ := isMapHit_iff.mp hhit
      intro hnil
      have := (mappingReps_nil_iff e t).mp hnil id hid v
      exact this hres
  have himp1 : (runAcc e t).mappingReps ≠ [] → (runAcc e t).replacements ≠ [] := by
    intro hne
    cases hrep : (runAcc e t).mappingReps with
    | nil => exact absurd hrep hne
    | cons p l =>
      have hk : p.1 ∈ keysOf (runAcc e t).mappingReps := by rw [hrep]; simp [keysOf]
      have hk2 : p.1 ∈ keysOf (runAcc e t).replacements :=
        (runAcc_good e t).2.2.2.2.2.2.1 p.1 hk
      intro hnil
      rw [hnil] at hk2
      simp [keysOf] at hk2
  have himp2 : (runAcc e t).mappingReps ≠ [] → e.hasMapping = true := by
    intro hne
    cases hrep : (runAcc e t).mappingReps with
    | nil => exact absurd hrep hne
    | cons p l =>
      have hk : p.1 ∈ keysOf (runAcc e t).mappingReps := by rw [hrep]; simp [keysOf]
      obtain ⟨_, v, hres⟩ := (mem_keys_mappingReps e t p.1).mp hk
      exact (resolve_some_true_elim hres).1
  constructor
  · rw [hrepfield]
    by_cases hc : (runAcc e t).replacements ≠ [] ∧ (runAcc e t).mappingReps ≠ [] ∧
        e.hasMapping = true
    · rw [if_pos hc]
      by_cases hms : specMissM m t ≠ []
      · simp only [if_pos hms]
        simp only [ne_eq, reduceCtorEq, not_false_eq_true, true_iff]
        exact ⟨hhit.mp hc.2.1, hms⟩
      · simp only [if_neg hms]
        simp only [ne_eq, not_true_eq_false, false_iff, not_and]
        intro _
        exact fun h => hms h
    · rw [if_neg hc]
      simp only [ne_eq, not_true_eq_false, false_iff, not_and]
      intro hhit2 hms
      exact hc ⟨himp1 (hhit.mpr hhit2), hhit.mpr hhit2, himp2 (hhit.mpr hhit2)⟩
  · intro l hl
    rw [hrepfield] at hl
    by_cases hc : (runAcc e t).replacements ≠ [] ∧ (runAcc e t).mappingReps ≠ [] ∧
        e.hasMapping = true
    · rw [if_pos hc] at hl
      by_cases hms : specMissM m t ≠ []
      · rw [if_pos hms] at hl
        obtain rfl : specMissM m t = l := by injection hl
        refine ⟨rfl, ?_, ?_⟩
        · exact sorted_sortInts _
        · intro k
          unfold specMissM
          rw [mem_sortInts, List.mem_filter, List.mem_dedup]
          simp only [decide_eq_true_eq, List.mem_map]
          constructor
          · rintro ⟨hk, hnm⟩
            refine ⟨hk, ?_⟩
            intro id hid heq
            exact hnm ⟨id, hid, heq⟩
          · rintro ⟨hk, hall⟩
            refine ⟨hk, ?_⟩
            rintro ⟨id, hid, heq⟩
            exact hall id hid heq
      · rw [if_neg hms] at hl
        exact absurd hl (by simp)
    · rw [if_neg hc] at hl
      exact absurd hl (by simp)

theorem claim4_witness :
    (mkReport ⟨some [(148, 2501), (999, 1)], none, none⟩
      (runAcc ⟨some [(148, 2501), (999, 1)], none, none⟩
        "set vlanid 148\n".toList)).missingMapping ≠ none := by
  have h := claim4_missing_mapping [(148, 2501), (999, 1)] none
    ⟨some [(148, 2501), (999, 1)], none, none⟩ rfl "set vlanid 148\n".toList
  exact h.1.mpr (by decide)

/-- C5: once configure has succeeded, the run is total: for every input text
the engine returns the rewritten text together with a Report, and the
explicit empty-result state holds exactly when no matched id resolves to a
replacement, which covers empty texts and texts without well-formed VLAN
statements. -/
theorem claim5_apply_total (mo : Option Mapping) (ro : Option RangeQ) (e : Engine)
    (hcfg : configure mo ro = .ok e) (t : List Char) :
    replaceVlanIds mo ro t = .ok (applyText e t, mkReport e (runAcc e t)) ∧
    ((mkReport e (runAcc e t)).emptyResult = true ↔
      ∀ id ∈ matchedIds t, resolve e id = none) ∧
    (matchedIds t = [] → (mkReport e (runAcc e t)).emptyResult = true) := by
  have hempty : (mkReport e (runAcc e t)).emptyResult = true ↔
      ∀ id ∈ matchedIds t, resolve e id = none := by
    show (runAcc e t).replacements.isEmpty = true ↔ _
    rw [List.isEmpty_iff]
    exact replacements_nil_iff e t
  refine ⟨?_, hempty, ?_⟩
  · unfold replaceVlanIds
    rw [hcfg]
    rfl
  · intro hnil
    rw [hempty]
    intro id hid
    rw [hnil] at hid
    simp at hid

theorem claim5_witness :
    replaceVlanIds (some [(151, 2500)]) none [] =
      .ok (applyText ⟨some [(151, 2500)], none, none⟩ [],
        mkReport ⟨some [(151, 2500)], none, none⟩
          (runAcc ⟨some [(151, 2500)], none, none⟩ [])) ∧
    ((mkReport ⟨some [(151, 2500)], none, none⟩
      (runAcc ⟨some [(151, 2500)], none, none⟩ [])).emptyResult = true ↔
      ∀ id ∈ matchedIds [], resolve ⟨some [(151, 2500)], none, none⟩ id = none) ∧
    (matchedIds [] = [] → (mkReport ⟨some [(151, 2500)], none, none⟩
      (runAcc ⟨some [(151, 2500)], none, none⟩ [])).emptyResult = true) :=
  claim5_apply_total (some [(151, 2500)]) none
    ⟨some [(151, 2500)], none, none⟩ rfl []

/-- C6: the rewritten text is the concatenation, over the non-overlapping scan
of the input into plain characters and pattern occurrences, of per-token
replacements; the tokens reassemble to the original input, every occurrence
captures a non-empty all-digit run, plain characters pass through unchanged,
and an occurrence whose id resolves to no rule is reproduced verbatim. -/
theorem claim6_frame (e : Engine) (t : List Char) :
    applyText e t = (tokenize t).flatMap (renderTok e) ∧
    (tokenize t).flatMap Tok.orig = t ∧
    (∀ ds, Tok.stmt ds ∈ tokenize t → ds ≠ [] ∧ ∀ c ∈ ds, c.isDigit = true) ∧
    (∀ c, Tok.ch c ∈ tokenize t → renderTok e (.ch c) = [c]) ∧
    (∀ ds, Tok.stmt ds ∈ tokenize t → resolve e (digitsVal ds) = none →
      renderTok e (.stmt ds) = kwChars ++ ds) := by
  refine ⟨rfl, tokenize_orig t, fun ds h => tokenize_valid t ds h,
    fun c _ => rfl, ?_⟩
  intro ds _ hres
  rw [renderTok_stmt, outDigits_none hres]

theorem claim6_witness :
    applyText ⟨some [(7, 2500)], none, none⟩ "ab set vlanid 7 set vlanid 9\n".toList =
      (tokenize "ab set vlanid 7 set vlanid 9\n".toList).flatMap
        (renderTok ⟨some [(7, 2500)], none, none⟩) ∧
    (tokenize "ab set vlanid 7 set vlanid 9\n".toList).flatMap Tok.orig =
      "ab set vlanid 7 set vlanid 9\n".toList ∧
    renderTok ⟨some [(7, 2500)], none, none⟩ (.stmt ['9']) = kwChars ++ ['9'] := by
  have h := claim6_frame ⟨some [(7, 2500)], none, none⟩
    "ab set vlanid 7 set vlanid 9\n".toList
  exact ⟨h.1, h.2.1, h.2.2.2.2 ['9'] (by decide) (by decide)⟩

/-- C7: a configuration whose mapping keys are disjoint from every id occurring
in the text, and whose range covers none of them, leaves the text byte
identical, with an empty replacement record and a zero-total empty-result
report. -/
theorem claim7_disjoint_identity (e : Engine) (t : List Char)
    (hm : ∀ id ∈ matchedIds t, ∀ m', e.mapping = some m' →
      (id : Int) ∉ m'.map Prod.fst)
    (hr : ∀ id ∈ matchedIds t, ∀ os oe ns ne, e.ranges = some (os, oe, ns, ne) →
      ¬(os ≤ (id : Int) ∧ (id : Int) ≤ oe)) :
    applyText e t = t ∧ (runAcc e t).replacements = [] ∧
    (mkReport e (runAcc e t)).emptyResult = true ∧
    (mkReport e (runAcc e t)).total = 0 := by
  have hdisj : ∀ id ∈ matchedIds t, resolve e id = none := fun id hid =>
    resolve_eq_none
      (fun m' hm2 => mapLookup_eq_none_iff.mpr (hm id hid m' hm2))
      (hr id hid)
  have hnil := (replacements_nil_iff e t).mpr hdisj
  refine ⟨applyText_id_of_unresolved hdisj, hnil, ?_, ?_⟩
  · show (runAcc e t).replacements.isEmpty = true
    rw [List.isEmpty_iff]
    exact hnil
  · show (runAcc e t).replacements.length = 0
    rw [hnil]
    rfl

theorem claim7_witness :
    applyText ⟨some [(999, 1)], none, none⟩ "set vlanid 5\nx".toList =
      "set vlanid 5\nx".toList ∧
    (runAcc ⟨some [(999, 1)], none, none⟩
      "set vlanid 5\nx".toList).replacements = [] ∧
    (mkReport ⟨some [(999, 1)], none, none⟩
      (runAcc ⟨some [(999, 1)], none, none⟩
        "set vlanid 5\nx".toList)).emptyResult = true ∧
    (mkReport ⟨some [(999, 1)], none, none⟩
      (runAcc ⟨some [(999, 1)], none, none⟩
        "set vlanid 5\nx".toList)).total = 0 := by
  apply claim7_disjoint_identity
  · intro id hid m' h
    injection h with h2
    subst h2
    have hm : matchedIds "set vlanid 5\nx".toList = [5] := by decide
    rw [hm] at hid
    obtain rfl := List.mem_singleton.mp hid
    decide
  · intro id hid os oe ns ne h
    exact absurd h (by simp)

/-- C8 counterexample: the mapping 1 to 2 is injective (distinct keys and
distinct values), yet on the text `set vlanid 2` the forward engine changes
nothing and the inverse engine rewrites 2 to 1, so the round trip does not
restore the original text. -/
theorem claim8_counterexample :
    (([((1 : Int), (2 : Int))].map Prod.fst).Nodup ∧
     ([((1 : Int), (2 : Int))].map Prod.snd).Nodup) ∧
    configure (some [(1, 2)]) none = .ok ⟨some [(1, 2)], none, none⟩ ∧
    configure (some ([((1 : Int), (2 : Int))].map Prod.swap)) none =
      .ok ⟨some [(2, 1)], none, none⟩ ∧
    applyText ⟨some [(2, 1)], none, none⟩
      (applyText ⟨some [(1, 2)], none, none⟩ "set vlanid 2".toList) ≠
      "set vlanid 2".toList :=
  ⟨⟨by decide, by decide⟩, rfl, rfl, by decide⟩

/-- C8 amended: applying an engine configured with an injective MappingTable
whose values are nonnegative, then an engine configured with the inverse
mapping, restores the original text exactly, provided every matched digit run
in the text is a canonical decimal (no leading zeros) and no id occurring in
the text is a mapping value without also being a mapping key. -/
theorem claim8_roundtrip (m : Mapping) (e1 e2 : Engine)
    (hcfg1 : configure (some m) none = .ok e1)
    (hcfg2 : configure (some (m.map Prod.swap)) none = .ok e2)
    (hvnd : (m.map Prod.snd).Nodup)
    (hpos : ∀ p ∈ m, 0 ≤ p.2)
    (t : List Char)
    (hcanon : ∀ tok ∈ tokenize t, canonTok tok = true)
    (hclosed : ∀ id ∈ matchedIds t,
      (id : Int) ∈ m.map Prod.snd → (id : Int) ∈ m.map Prod.fst) :
    applyText e2 (applyText e1 t) = t := by
  obtain ⟨hm1, hr1, ho1⟩ := configure_ok_fields hcfg1
  obtain ⟨hm2, hr2, ho2⟩ := configure_ok_fields hcfg2
  have he1 : e1 = ⟨some m, none, none⟩ := by
    cases e1
    simp_all
  have he2 : e2 = ⟨some (m.map Prod.swap), none, none⟩ := by
    cases e2
    simp_all
  subst he1
  subst he2
  apply roundtrip_general m hvnd hpos t
  · intro ds htok
    have := hcanon (Tok.stmt ds) htok
    unfold canonTok at this
    exact of_decide_eq_true this
  · exact hclosed

theorem claim8_witness :
    applyText ⟨some ([((151 : Int), (2500 : Int))].map Prod.swap), none, none⟩
      (applyText ⟨some [(151, 2500)], none, none⟩
        "set vlanid 151\nset vlanid 9\n".toList) =
      "set vlanid 151\nset vlanid 9\n".toList :=
  claim8_roundtrip [(151, 2500)]
    ⟨some [(151, 2500)], none, none⟩
    ⟨some ([((151 : Int), (2500 : Int))].map Prod.swap), none, none⟩
    rfl rfl (by decide) (by decide)
    "set vlanid 151\nset vlanid 9\n".toList (by decide) (by decide)

/-- C9: the report total counts distinct replaced old ids, not textual
occurrences: it equals the number of distinct matched ids that resolve to a
replacement, each old id appears at most once in every tracking dict, and the
sorted per-source item lists of the report have exactly one entry per distinct
old id of their dict. -/
theorem claim9_distinct_count (e : Engine) (t : List Char) :
    (mkReport e (runAcc e t)).total =
      ((matchedIds t).filter (fun id => (resolve e id).isSome)).dedup.length ∧
    (keysOf (runAcc e t).replacements).Nodup ∧
    (keysOf (runAcc e t).mappingReps).Nodup ∧
    (keysOf (runAcc e t).rangeReps).Nodup ∧
    (mkReport e (runAcc e t)).mappingItems.length =
      (runAcc e t).mappingReps.length ∧
    (mkReport e (runAcc e t)).rangeItems.length =
      (runAcc e t).rangeReps.length := by
  obtain ⟨h1, h2, h3, _⟩ := runAcc_good e t
  refine ⟨?_, h1, h2, h3, ?_, ?_⟩
  · show (runAcc e t).replacements.length = _
    exact total_eq_distinct e t
  · show (sortPairs (runAcc e t).mappingReps).length = _
    exact length_sortPairs _
  · show (sortPairs (runAcc e t).rangeReps).length = _
    exact length_sortPairs _

theorem claim9_witness :
    (mkReport ⟨some [(151, 2500)], none, none⟩
      (runAcc ⟨some [(151, 2500)], none, none⟩
        "set vlanid 151 set vlanid 151\n".toList)).total =
      ((matchedIds "set vlanid 151 set vlanid 151\n".toList).filter
        (fun id => (resolve ⟨some [(151, 2500)], none, none⟩ id).isSome)).dedup.length ∧
    (mkReport ⟨some [(151, 2500)], none, none⟩
      (runAcc ⟨some [(151, 2500)], none, none⟩
        "set vlanid 151 set vlanid 151\n".toList)).total = 1 :=
  ⟨(claim9_distinct_count ⟨some [(151, 2500)], none, none⟩
      "set vlanid 151 set vlanid 151\n".toList).1, by decide⟩

/-- C10: an occurrence with zero-padded digits is resolved by its decimal
value (a leading zero does not change the parsed id); on a hit the new id is
printed in canonical decimal without the original padding, and with no rule the
original digits, zeros included, are kept verbatim; concretely, mapping 7 to
2500 rewrites `set vlanid 007` to `set vlanid 2500` and leaves
`set vlanid 0042` untouched. -/
theorem claim10_leading_zeros (e : Engine) (ds : List Char) :
    digitsVal ('0' :: ds) = digitsVal ds ∧
    (∀ v b, resolve e (digitsVal ds) = some (v, b) →
      renderTok e (.stmt ds) = kwChars ++ intStr v) ∧
    (resolve e (digitsVal ds) = none → renderTok e (.stmt ds) = kwChars ++ ds) ∧
    applyText ⟨some [(7, 2500)], none, none⟩
      "set vlanid 007x set vlanid 0042".toList =
      "set vlanid 2500x set vlanid 0042".toList := by
  refine ⟨rfl, ?_, ?_, by decide⟩
  · intro v b h
    rw [renderTok_stmt, outDigits_some h]
  · intro h
    rw [renderTok_stmt, outDigits_none h]

theorem claim10_witness :
    renderTok ⟨some [(7, 2500)], none, none⟩ (.stmt ['0', '0', '7']) =
      kwChars ++ intStr 2500 ∧
    renderTok ⟨some [(7, 2500)], none, none⟩ (.stmt ['0', '0', '4', '2']) =
      kwChars ++ ['0', '0', '4', '2'] :=
  ⟨(claim10_leading_zeros ⟨some [(7, 2500)], none, none⟩ ['0', '0', '7']).2.1
      2500 true (by decide),
   (claim10_leading_zeros ⟨some [(7, 2500)], none, none⟩
      ['0', '0', '4', '2']).2.2.1 (by decide)⟩
